import Mathlib

/-
Verification of the nnc (n-sized noughts and crosses) game library.

The definitions below are a shallow embedding of src/nnc.go:
  * cells are Go bytes, modelled as Nat (Empty = ' ' = 32, Cross = 'X' = 88,
    Nought = 'O' = 79);
  * the Game struct keeps the Go field order (board, size, count, currPlayer);
  * Go functions that mutate the receiver are modelled as functions
    returning the result together with the updated Game;
  * Go's make with a negative length panics, so New takes an Int and
    returns none exactly for negative sizes;
  * loops with early return are translated to recursive helper functions
    named after the function they come from.
-/

namespace nnc

/-- Empty is an unplayed square, the byte ' '. -/
def Empty : Nat := 32

/-- Cross is the byte 'X'. -/
def Cross : Nat := 88

/-- Nought is the byte 'O'. -/
def Nought : Nat := 79

/-- The Game struct of nnc.go: board, size, count, currPlayer. -/
structure Game where
  board : List (List Nat)
  size : Nat
  count : Int
  currPlayer : Nat
deriving DecidableEq

/-- The move struct of nnc.go: value, i, j. -/
structure move where
  value : Int
  i : Int
  j : Int
deriving DecidableEq

/-- min of nnc.go: the minimum weighted playing position (ties keep a). -/
def min (a b : move) : move :=
  if a.value ≤ b.value then a else b

/-- max of nnc.go: the maximum weighted playing position (ties keep a). -/
def max (a b : move) : move :=
  if a.value ≥ b.value then a else b

/-- CurrentPlayer method of nnc.go. -/
def CurrentPlayer (g : Game) : Nat := g.currPlayer

/-- New of nnc.go.  Go's make panics for a negative length (modelled as
none); otherwise the board is a size × size grid of Empty, count = sz*sz
and the first player is Cross. -/
def New (sz : Int) : Option Game :=
  if sz < 0 then none
  else some
    { board := List.replicate sz.toNat (List.replicate sz.toNat Empty)
      size := sz.toNat
      count := sz * sz
      currPlayer := Cross }

/-- Reading g.board[i][j]; out-of-range reads (which Go would panic on,
and which never happen on well-formed boards) default to Empty. -/
def cell (g : Game) (i j : Nat) : Nat :=
  (g.board.getD i []).getD j Empty

/-- Well-formed board: the board really is a size × size grid. -/
def WF (g : Game) : Prop :=
  g.board.length = g.size ∧ ∀ r ∈ g.board, r.length = g.size

instance (g : Game) : Decidable (WF g) := by
  unfold WF; infer_instance

/-- Every cell of the board is one of the three symbol values. -/
def validCells (g : Game) : Prop :=
  ∀ r ∈ g.board, ∀ c ∈ r, c = Empty ∨ c = Cross ∨ c = Nought

instance (g : Game) : Decidable (validCells g) := by
  unfold validCells; infer_instance

/-- Row i of the board as read by the loops of isDone and outcome. -/
def rowCells (g : Game) (i : Nat) : List Nat :=
  (List.range g.size).map (fun j => cell g i j)

/-- Column i of the board as read by the loops of isDone and outcome. -/
def colCells (g : Game) (i : Nat) : List Nat :=
  (List.range g.size).map (fun j => cell g j i)

/-- The main diagonal. -/
def diagCells (g : Game) : List Nat :=
  (List.range g.size).map (fun i => cell g i i)

/-- The anti-diagonal: board[i][sz-1-i]. -/
def adiagCells (g : Game) : List Nat :=
  (List.range g.size).map (fun i => cell g i (g.size - 1 - i))

/-- The per-line loop of isDone: local stays true iff every cell equals
the first one and the first one is not Empty; init is the first cell.
On the empty list the loop body never runs, leaving (true, Empty). -/
def lineFull (cells : List Nat) : Bool × Nat :=
  match cells with
  | [] => (true, Empty)
  | c :: rest => (decide (c ≠ Empty) && rest.all (fun x => x == c), c)

/-- The draw scan of isDone: ranges over the actual board lists looking
for an Empty cell. -/
def hasEmptyG (g : Game) : Bool :=
  g.board.any (fun r => r.any (fun c => c == Empty))

/-- The main loop of isDone: for each index i test row i then column i,
returning the first full line; after the loop test the diagonal, the
anti-diagonal, and finally scan for a draw. -/
def isDoneRows (g : Game) : List Nat → Bool × Nat
  | [] =>
    if (lineFull (diagCells g)).1 then (true, (lineFull (diagCells g)).2)
    else if (lineFull (adiagCells g)).1 then (true, (lineFull (adiagCells g)).2)
    else (!hasEmptyG g, Empty)
  | i :: rest =>
    if (lineFull (rowCells g i)).1 then (true, (lineFull (rowCells g i)).2)
    else if (lineFull (colCells g i)).1 then (true, (lineFull (colCells g i)).2)
    else isDoneRows g rest

/-- isDone method of nnc.go. -/
def isDone (g : Game) : Bool × Nat :=
  isDoneRows g (List.range g.size)

/-- updateTurn method of nnc.go; an invalid player value is left
unchanged (the Go method returns an error that Play ignores). -/
def updateTurnVal (c : Nat) : Nat :=
  if c = Cross then Nought else if c = Nought then Cross else c

/-- The three error results Play can surface. -/
inductive PlayError
  | wrongTurn
  | outOfBounds
  | cellOccupied
deriving DecidableEq

/-- Writing player into board[x][y]. -/
def setCell (g : Game) (x y : Nat) (player : Nat) : Game :=
  { g with board := g.board.set x ((g.board.getD x []).set y player) }

/-- Play method of nnc.go: validate turn, bounds and emptiness, then
write the cell, compute isDone, flip the turn and decrement count. -/
def Play (g : Game) (x y : Int) (player : Nat) :
    Except PlayError (Bool × Nat) × Game :=
  if g.currPlayer ≠ player then (Except.error PlayError.wrongTurn, g)
  else if x < 0 ∨ (g.size : Int) ≤ x ∨ y < 0 ∨ (g.size : Int) ≤ y then
    (Except.error PlayError.outOfBounds, g)
  else if cell g x.toNat y.toNat ≠ Empty then
    (Except.error PlayError.cellOccupied, g)
  else
    let g1 := setCell g x.toNat y.toNat player
    let dw := isDone g1
    (Except.ok dw, { g1 with currPlayer := updateTurnVal g1.currPlayer, count := g1.count - 1 })

/-- The per-line loop of outcome: Empty squares are skipped, the first
non-Empty symbol becomes init, a different non-Empty symbol resets the
sum to 0 and breaks, and otherwise each symbol adds +1 for player and
-1 for the opponent. -/
def lineSumAux (player : Nat) : List Nat → Nat → Int → Int
  | [], _, lsum => lsum
  | c :: rest, init, lsum =>
    if c = Empty then lineSumAux player rest init lsum
    else
      let init2 := if init = Empty then c else init
      if c ≠ init2 then 0
      else lineSumAux player rest init2 (if c = player then lsum + 1 else lsum - 1)

/-- A whole line's sum, starting from init = Empty and sum = 0. -/
def lineSum (player : Nat) (cells : List Nat) : Int :=
  lineSumAux player cells Empty 0

/-- The diagonal and anti-diagonal part of outcome, entered with the
accumulated row and column sums. -/
def outcomeDiags (g : Game) (player : Nat) (acc : Int) : Int :=
  let sz : Int := g.size
  let dsum := lineSum player (diagCells g)
  if dsum = sz then 3 * sz * sz
  else if dsum = -sz then -(3 * sz * sz)
  else
    let acc1 := acc + dsum
    let adsum := lineSum player (adiagCells g)
    if adsum = sz then 3 * sz * sz
    else if adsum = -sz then -(3 * sz * sz)
    else acc1 + adsum

/-- The main loop of outcome over the row/column indices: a line sum of
±size returns the sentinel ±3·size² at once, otherwise the two sums are
accumulated and the loop continues, falling through to the diagonals. -/
def outcomeRows (g : Game) (player : Nat) : List Nat → Int → Int
  | [], acc => outcomeDiags g player acc
  | i :: rest, acc =>
    let sz : Int := g.size
    let lsum := lineSum player (rowCells g i)
    let csum := lineSum player (colCells g i)
    if lsum = sz ∨ csum = sz then 3 * sz * sz
    else if lsum = -sz ∨ csum = -sz then -(3 * sz * sz)
    else outcomeRows g player rest (acc + lsum + csum)

/-- outcome method of nnc.go; a player other than Nought/Cross scores 0. -/
def outcome (g : Game) (player : Nat) : Int :=
  if player ≠ Nought ∧ player ≠ Cross then 0
  else outcomeRows g player (List.range g.size) 0

/-- The enumeration order of the double loop `for i, l := range g.board,
for j, e := range l`: all cells with their indices, row-major. -/
def cellsOf (g : Game) : List (Nat × Nat × Nat) :=
  g.board.enum.flatMap (fun p => p.2.enum.map (fun q => (p.1, q.1, q.2)))

/-- The maximizing loop of alphaBetaPruningSerial, parameterized by the
recursive call f at depth-1.  State: the running best p and alpha
(initially p.value); a cut-off returns the just-evaluated child m. -/
def abMaxLoop (g : Game) (player : Nat) (f : Game → Int → Int → Nat → Nat → move) :
    List (Nat × Nat × Nat) → move → Int → Int → move
  | [], p, _, _ => p
  | (i, j, e) :: rest, p, alpha, beta =>
    if e ≠ Empty then abMaxLoop g player f rest p alpha beta
    else
      let ng := (Play g i j player).2
      let m0 := f ng alpha beta i j
      let m : move := ⟨m0.value, (i : Int), (j : Int)⟩
      let p2 := max p m
      let alpha2 := p2.value
      if beta ≤ alpha2 then m
      else abMaxLoop g player f rest p2 alpha2 beta

/-- The minimizing loop of alphaBetaPruningSerial: the candidate move is
played as curr = g.currPlayer, beta is the updated bound. -/
def abMinLoop (g : Game) (curr : Nat) (f : Game → Int → Int → Nat → Nat → move) :
    List (Nat × Nat × Nat) → move → Int → Int → move
  | [], p, _, _ => p
  | (i, j, e) :: rest, p, beta, alpha =>
    if e ≠ Empty then abMinLoop g curr f rest p beta alpha
    else
      let ng := (Play g i j curr).2
      let m0 := f ng alpha beta i j
      let m : move := ⟨m0.value, (i : Int), (j : Int)⟩
      let p2 := min p m
      let beta2 := p2.value
      if beta2 ≤ alpha then m
      else abMinLoop g curr f rest p2 beta2 alpha

/-- alphaBetaPruningSerial of nnc.go.  At depth 0 or on a finished game
it returns the outcome with the last move's coordinates; otherwise it
runs the maximizing loop when it is player's turn and the minimizing
loop otherwise, recursing at depth-1. -/
def alphaBetaPruningSerial (g : Game) (depth : Nat) (alpha beta : Int) (x y : Int)
    (player : Nat) : move :=
  match depth with
  | 0 => ⟨outcome g player, x, y⟩
  | d + 1 =>
    if (isDone g).1 then ⟨outcome g player, x, y⟩
    else if g.currPlayer = player then
      abMaxLoop g player (fun ng a b i j => alphaBetaPruningSerial ng d a b i j player)
        (cellsOf g) ⟨alpha, x, y⟩ alpha beta
    else
      abMinLoop g g.currPlayer (fun ng a b i j => alphaBetaPruningSerial ng d a b i j player)
        (cellsOf g) ⟨beta, x, y⟩ beta alpha

/-- PlayAI method of nnc.go: check the turn, run the serial alpha-beta
search with depth size², alpha = -lim, beta = lim and last move (-1,-1),
then apply the returned move through Play. -/
def PlayAI (g : Game) (player : Nat) : Except PlayError (Bool × Nat) × Game :=
  if g.currPlayer ≠ player then (Except.error PlayError.wrongTurn, g)
  else
    let lim : Int := (g.size : Int) * (g.size : Int) * 10
    let m := alphaBetaPruningSerial g (g.size * g.size) (-lim) lim (-1) (-1) player
    Play g m.i m.j player

/-- Fuel-indexed mirror of the maximizing loop, for the termination
statement: the recursive call may run out of fuel. -/
def abMaxLoopO (g : Game) (player : Nat) (f : Game → Int → Int → Nat → Nat → Option move) :
    List (Nat × Nat × Nat) → move → Int → Int → Option move
  | [], p, _, _ => some p
  | (i, j, e) :: rest, p, alpha, beta =>
    if e ≠ Empty then abMaxLoopO g player f rest p alpha beta
    else
      match f (Play g i j player).2 alpha beta i j with
      | none => none
      | some m0 =>
        let m : move := ⟨m0.value, (i : Int), (j : Int)⟩
        let p2 := max p m
        if beta ≤ p2.value then some m
        else abMaxLoopO g player f rest p2 p2.value beta

/-- Fuel-indexed mirror of the minimizing loop. -/
def abMinLoopO (g : Game) (curr : Nat) (f : Game → Int → Int → Nat → Nat → Option move) :
    List (Nat × Nat × Nat) → move → Int → Int → Option move
  | [], p, _, _ => some p
  | (i, j, e) :: rest, p, beta, alpha =>
    if e ≠ Empty then abMinLoopO g curr f rest p beta alpha
    else
      match f (Play g i j curr).2 alpha beta i j with
      | none => none
      | some m0 =>
        let m : move := ⟨m0.value, (i : Int), (j : Int)⟩
        let p2 := min p m
        if p2.value ≤ alpha then some m
        else abMinLoopO g curr f rest p2 p2.value alpha

/-- The search with an explicit fuel separate from the depth argument:
none when the fuel runs out before the recursion bottoms out. -/
def alphaBetaFuel (fuel : Nat) (g : Game) (depth : Nat) (alpha beta : Int) (x y : Int)
    (player : Nat) : Option move :=
  match fuel with
  | 0 => none
  | fl + 1 =>
    match depth with
    | 0 => some ⟨outcome g player, x, y⟩
    | d + 1 =>
      if (isDone g).1 then some ⟨outcome g player, x, y⟩
      else if g.currPlayer = player then
        abMaxLoopO g player (fun ng a b i j => alphaBetaFuel fl ng d a b i j player)
          (cellsOf g) ⟨alpha, x, y⟩ alpha beta
      else
        abMinLoopO g g.currPlayer (fun ng a b i j => alphaBetaFuel fl ng d a b i j player)
          (cellsOf g) ⟨beta, x, y⟩ beta alpha

/-- Modelled from the spec (§4.2): a line is won when it is fully
occupied by a single non-Empty symbol; the empty line is not won. -/
def lineWin (cells : List Nat) : Option Nat :=
  match cells with
  | [] => none
  | c :: rest => if c ≠ Empty ∧ ∀ x ∈ rest, x = c then some c else none

/-- Modelled from the spec (§4.2): the first full line in scan order
(row i then column i for i ascending, then diagonal, then
anti-diagonal). -/
def firstWinSpec (g : Game) : Option Nat :=
  (((List.range g.size).findSome?
      (fun i => (lineWin (rowCells g i)).orElse (fun _ => lineWin (colCells g i)))).orElse
    (fun _ => lineWin (diagCells g))).orElse
    (fun _ => lineWin (adiagCells g))

/-- Modelled from the spec (§4.2): some cell of the size × size grid is
Empty. -/
def hasEmptySpec (g : Game) : Bool :=
  (List.range g.size).any (fun i => (List.range g.size).any (fun j => cell g i j == Empty))

/-- Modelled from the spec (§4.2): the terminal detector described by
the specification text. -/
def isDoneSpec (g : Game) : Bool × Nat :=
  match firstWinSpec g with
  | some s => (true, s)
  | none => if hasEmptySpec g then (false, Empty) else (true, Empty)

/-- Some row, column or diagonal of the board is fully won. -/
def hasFullLine (g : Game) : Bool :=
  ((List.range g.size).any
    (fun i => (lineWin (rowCells g i)).isSome || (lineWin (colCells g i)).isSome))
  || (lineWin (diagCells g)).isSome || (lineWin (adiagCells g)).isSome

/-- A move whose coordinates point at an Empty cell of the board. -/
def GoodCoord (g : Game) (m : move) : Prop :=
  ∃ i j : Nat, m.i = (i : Int) ∧ m.j = (j : Int) ∧ (i, j, Empty) ∈ cellsOf g

/- ------------------------------------------------------------------ -/
/- Helper lemmas.                                                      -/
/- ------------------------------------------------------------------ -/

theorem getD_set_self (l : List Nat) (i a d : Nat) (h : i < l.length) :
    (l.set i a).getD i d = a := by
  rw [List.getD_eq_getElem _ _ (by simpa using h)]
  exact List.getElem_set_self ..

theorem getD_set_ne (l : List Nat) (i j a d : Nat) (h : i ≠ j) :
    (l.set i a).getD j d = l.getD j d := by
  rcases Nat.lt_or_ge j l.length with hj | hj
  · rw [List.getD_eq_getElem _ _ (by simpa using hj), List.getD_eq_getElem _ _ hj]
    exact List.getElem_set_ne h ..
  · rw [List.getD_eq_default _ _ (by simpa using hj), List.getD_eq_default _ _ hj]

theorem getD_set_self' (l : List (List Nat)) (i : Nat) (a : List Nat) (d : List Nat)
    (h : i < l.length) : (l.set i a).getD i d = a := by
  rw [List.getD_eq_getElem _ _ (by simpa using h)]
  exact List.getElem_set_self ..

theorem getD_set_ne' (l : List (List Nat)) (i j : Nat) (a : List Nat) (d : List Nat)
    (h : i ≠ j) : (l.set i a).getD j d = l.getD j d := by
  rcases Nat.lt_or_ge j l.length with hj | hj
  · rw [List.getD_eq_getElem _ _ (by simpa using hj), List.getD_eq_getElem _ _ hj]
    exact List.getElem_set_ne h ..
  · rw [List.getD_eq_default _ _ (by simpa using hj), List.getD_eq_default _ _ hj]

theorem cell_setCell_self (g : Game) (x y p : Nat) (hx : x < g.board.length)
    (hy : y < (g.board.getD x []).length) :
    cell (setCell g x y p) x y = p := by
  unfold cell setCell
  simp only
  rw [getD_set_self' _ _ _ _ (by simpa using hx)]
  exact getD_set_self _ _ _ _ hy

theorem cell_setCell_ne (g : Game) (x y p i j : Nat) (h : ¬(i = x ∧ j = y)) :
    cell (setCell g x y p) i j = cell g i j := by
  unfold cell setCell
  simp only
  by_cases hix : i = x
  · subst hix
    have hjy : j ≠ y := fun hj => h ⟨rfl, hj⟩
    rcases Nat.lt_or_ge i g.board.length with hi | hi
    · rw [getD_set_self' _ _ _ _ (by simpa using hi)]
      exact getD_set_ne _ _ _ _ _ (fun hk => hjy hk.symm)
    · have h1 : (g.board.set i ((g.board.getD i []).set y p)).getD i [] = [] :=
        List.getD_eq_default _ _ (by simpa using hi)
      have h2 : g.board.getD i [] = [] := List.getD_eq_default _ _ hi
      rw [h1, h2]
  · rw [getD_set_ne' _ _ _ _ _ (fun hk => hix hk.symm)]

theorem setCell_board_length (g : Game) (x y p : Nat) :
    (setCell g x y p).board.length = g.board.length := by
  simp [setCell]

theorem Play_size (g : Game) (x y : Int) (p : Nat) : ((Play g x y p).2).size = g.size := by
  unfold Play
  split_ifs <;> rfl

/- ------------------------------------------------------------------ -/
/- C2                                                                  -/
/- ------------------------------------------------------------------ -/

/-- C2 counterexample: the claim says create fails when size < 1, but
New 0 succeeds (returns a game), so the claim as stated is false. -/
theorem New_zero_cx : (New 0).isSome = true := rfl

/-- C2 (amended): for every size ≥ 0, New returns a game whose cells
are all Empty, whose board is size × size and whose current player is
Cross; New fails (Go's make panics) only for size < 0, not for
size < 1. -/
theorem New_spec (sz : Int) :
    (0 ≤ sz → ∃ g, New sz = some g ∧
      g.board = List.replicate sz.toNat (List.replicate sz.toNat Empty) ∧
      (∀ r ∈ g.board, ∀ c ∈ r, c = Empty) ∧
      g.currPlayer = Cross ∧ g.size = sz.toNat ∧
      g.board.length = g.size ∧ (∀ r ∈ g.board, r.length = g.size)) ∧
    (sz < 0 → New sz = none) := by
  constructor
  · intro h
    refine ⟨⟨List.replicate sz.toNat (List.replicate sz.toNat Empty), sz.toNat, sz * sz, Cross⟩,
      ?_, rfl, ?_, rfl, rfl, ?_, ?_⟩
    · unfold New
      rw [if_neg (by omega)]
    · intro r hr c hc
      rw [List.eq_of_mem_replicate hr] at hc
      exact List.eq_of_mem_replicate hc
    · simp
    · intro r hr
      rw [List.eq_of_mem_replicate hr]
      simp
  · intro h
    unfold New
    rw [if_pos h]

/-- Witness for C2's amended theorem at size 2. -/
theorem New_spec_witness : ∃ g, New 2 = some g ∧
    g.board = List.replicate (2:Int).toNat (List.replicate (2:Int).toNat Empty) ∧
    (∀ r ∈ g.board, ∀ c ∈ r, c = Empty) ∧
    g.currPlayer = Cross ∧ g.size = (2:Int).toNat ∧
    g.board.length = g.size ∧ (∀ r ∈ g.board, r.length = g.size) :=
  (New_spec 2).1 (by decide)

/- ------------------------------------------------------------------ -/
/- C4 and C6                                                           -/
/- ------------------------------------------------------------------ -/

theorem Play_success_shape (g : Game) (x y : Int) (player : Nat)
    (ht : g.currPlayer = player)
    (hb : 0 ≤ x ∧ x < (g.size : Int) ∧ 0 ≤ y ∧ y < (g.size : Int))
    (he : cell g x.toNat y.toNat = Empty) :
    Play g x y player =
      (Except.ok (isDone (setCell g x.toNat y.toNat player)),
        { board := (setCell g x.toNat y.toNat player).board
          size := g.size
          count := g.count - 1
          currPlayer := updateTurnVal player }) := by
  have h1 : ¬(g.currPlayer ≠ player) := by simp [ht]
  have h2 : ¬(x < 0 ∨ (g.size : Int) ≤ x ∨ y < 0 ∨ (g.size : Int) ≤ y) := by
    push_neg
    omega
  have h3 : ¬(cell g x.toNat y.toNat ≠ Empty) := by simp [he]
  unfold Play
  rw [if_neg h1, if_neg h2, if_neg h3]
  have hcp : (setCell g x.toNat y.toNat player).currPlayer = player := ht
  simp only [hcp]
  rfl

theorem Play_success_props (g : Game) (x y : Int) (player : Nat)
    (ht : g.currPlayer = player)
    (hb : 0 ≤ x ∧ x < (g.size : Int) ∧ 0 ≤ y ∧ y < (g.size : Int))
    (he : cell g x.toNat y.toNat = Empty)
    (hp : player = Cross ∨ player = Nought) (hwf : WF g) :
    (Play g x y player).1 = Except.ok (isDone (setCell g x.toNat y.toNat player)) ∧
    cell (Play g x y player).2 x.toNat y.toNat = player ∧
    ((Play g x y player).2).currPlayer = (if player = Cross then Nought else Cross) := by
  have hs := Play_success_shape g x y player ht hb he
  have hx : x.toNat < g.board.length := by
    rw [hwf.1]; omega
  have hy : y.toNat < (g.board.getD x.toNat []).length := by
    have hmem : g.board.getD x.toNat [] ∈ g.board := by
      rw [List.getD_eq_getElem _ _ hx]
      exact List.getElem_mem hx
    rw [hwf.2 _ hmem]; omega
  refine ⟨by rw [hs], ?_, ?_⟩
  · rw [hs]
    exact cell_setCell_self g x.toNat y.toNat player hx hy
  · rw [hs]
    rcases hp with hp | hp <;> subst hp <;> rfl

/-- C4: Play fails with wrongTurn when it is not player's turn, with
outOfBounds when the coordinates leave [0,size), with cellOccupied when
the target cell is not Empty, each failure leaving the game unchanged;
when none of these hold (and the state satisfies the data-model
invariants) it succeeds, writes player into the cell and flips
currPlayer to the other player. -/
theorem Play_cases (g : Game) (x y : Int) (player : Nat) :
    (g.currPlayer ≠ player →
      Play g x y player = (Except.error PlayError.wrongTurn, g)) ∧
    (g.currPlayer = player →
      (x < 0 ∨ (g.size : Int) ≤ x ∨ y < 0 ∨ (g.size : Int) ≤ y) →
      Play g x y player = (Except.error PlayError.outOfBounds, g)) ∧
    (g.currPlayer = player →
      (0 ≤ x ∧ x < (g.size : Int) ∧ 0 ≤ y ∧ y < (g.size : Int)) →
      cell g x.toNat y.toNat ≠ Empty →
      Play g x y player = (Except.error PlayError.cellOccupied, g)) ∧
    (g.currPlayer = player →
      (0 ≤ x ∧ x < (g.size : Int) ∧ 0 ≤ y ∧ y < (g.size : Int)) →
      cell g x.toNat y.toNat = Empty →
      (player = Cross ∨ player = Nought) → WF g →
      (Play g x y player).1 = Except.ok (isDone (setCell g x.toNat y.toNat player)) ∧
      cell (Play g x y player).2 x.toNat y.toNat = player ∧
      ((Play g x y player).2).currPlayer = (if player = Cross then Nought else Cross)) := by
  refine ⟨?_, ?_, ?_, ?_⟩
  · intro h
    unfold Play
    rw [if_pos h]
  · intro ht hob
    unfold Play
    rw [if_neg (by simp [ht]), if_pos hob]
  · intro ht hb hocc
    unfold Play
    rw [if_neg (by simp [ht])]
    rw [if_neg (by push_neg; omega)]
    rw [if_pos hocc]
  · intro ht hb he hp hwf
    exact Play_success_props g x y player ht hb he hp hwf

/-- Witness for C4 on a concrete 2×2 game: all four cases exercised. -/
theorem Play_cases_witness :
    (Play ⟨[[Empty, Empty], [Empty, Empty]], 2, 4, Cross⟩ 0 0 Nought
        = (Except.error PlayError.wrongTurn, ⟨[[Empty, Empty], [Empty, Empty]], 2, 4, Cross⟩)) ∧
    (Play ⟨[[Empty, Empty], [Empty, Empty]], 2, 4, Cross⟩ 2 0 Cross
        = (Except.error PlayError.outOfBounds, ⟨[[Empty, Empty], [Empty, Empty]], 2, 4, Cross⟩)) ∧
    (Play ⟨[[Cross, Empty], [Empty, Empty]], 2, 3, Nought⟩ 0 0 Nought
        = (Except.error PlayError.cellOccupied, ⟨[[Cross, Empty], [Empty, Empty]], 2, 3, Nought⟩)) ∧
    ((Play ⟨[[Empty, Empty], [Empty, Empty]], 2, 4, Cross⟩ 0 1 Cross).1
        = Except.ok (isDone (setCell ⟨[[Empty, Empty], [Empty, Empty]], 2, 4, Cross⟩ 0 1 Cross)) ∧
      cell (Play ⟨[[Empty, Empty], [Empty, Empty]], 2, 4, Cross⟩ 0 1 Cross).2 0 1 = Cross ∧
      ((Play ⟨[[Empty, Empty], [Empty, Empty]], 2, 4, Cross⟩ 0 1 Cross).2).currPlayer
        = (if Cross = Cross then Nought else Cross)) := by
  refine ⟨?_, ?_, ?_, ?_⟩
  · exact (Play_cases ⟨[[Empty, Empty], [Empty, Empty]], 2, 4, Cross⟩ 0 0 Nought).1 (by decide)
  · exact (Play_cases ⟨[[Empty, Empty], [Empty, Empty]], 2, 4, Cross⟩ 2 0 Cross).2.1 rfl
      (by norm_num)
  · exact (Play_cases ⟨[[Cross, Empty], [Empty, Empty]], 2, 3, Nought⟩ 0 0 Nought).2.2.1 rfl
      (by norm_num) (by decide)
  · exact (Play_cases ⟨[[Empty, Empty], [Empty, Empty]], 2, 4, Cross⟩ 0 1 Cross).2.2.2 rfl
      (by norm_num) (by decide) (Or.inl rfl) (by decide)

/-- C6 counterexample: a successful Play also changes the count field,
so the claim that only the cell and currentPlayer change is false. -/
theorem Play_count_cx :
    ((Play ⟨[[Empty]], 1, 1, Cross⟩ 0 0 Cross).1).isOk = true ∧
    ((Play ⟨[[Empty]], 1, 1, Cross⟩ 0 0 Cross).2).count
      ≠ (⟨[[Empty]], 1, 1, Cross⟩ : Game).count := by
  exact ⟨rfl, by decide⟩

/-- C6 (amended): a successful Play changes the single target cell,
flips currPlayer and decrements count by one; the size and every other
cell are unchanged. -/
theorem Play_frame (g : Game) (x y : Int) (player : Nat)
    (hwf : WF g) (ht : g.currPlayer = player)
    (hb : 0 ≤ x ∧ x < (g.size : Int) ∧ 0 ≤ y ∧ y < (g.size : Int))
    (he : cell g x.toNat y.toNat = Empty)
    (hp : player = Cross ∨ player = Nought) :
    ((Play g x y player).1).isOk = true ∧
    ((Play g x y player).2).size = g.size ∧
    ((Play g x y player).2).count = g.count - 1 ∧
    ((Play g x y player).2).currPlayer = (if player = Cross then Nought else Cross) ∧
    cell (Play g x y player).2 x.toNat y.toNat = player ∧
    (∀ i j : Nat, ¬(i = x.toNat ∧ j = y.toNat) →
      cell (Play g x y player).2 i j = cell g i j) ∧
    ((Play g x y player).2).board.length = g.board.length := by
  have hs := Play_success_shape g x y player ht hb he
  have hcells := Play_success_props g x y player ht hb he hp hwf
  refine ⟨?_, ?_, ?_, hcells.2.2, hcells.2.1, ?_, ?_⟩
  · rw [hs]; rfl
  · rw [hs]
  · rw [hs]
  · intro i j hij
    rw [hs]
    exact cell_setCell_ne g x.toNat y.toNat player i j hij
  · rw [hs]
    exact setCell_board_length ..

/- ------------------------------------------------------------------ -/
/- C5 support: line sums                                               -/
/- ------------------------------------------------------------------ -/

theorem rowCells_length (g : Game) (i : Nat) : (rowCells g i).length = g.size := by
  simp [rowCells]

theorem colCells_length (g : Game) (i : Nat) : (colCells g i).length = g.size := by
  simp [colCells]

theorem diagCells_length (g : Game) : (diagCells g).length = g.size := by
  simp [diagCells]

theorem adiagCells_length (g : Game) : (adiagCells g).length = g.size := by
  simp [adiagCells]

theorem lineSumAux_anti (cells : List Nat)
    (hv : ∀ c ∈ cells, c = Empty ∨ c = Cross ∨ c = Nought) :
    ∀ init a, lineSumAux Cross cells init a = -(lineSumAux Nought cells init (-a)) := by
  induction cells with
  | nil => intro init a; simp [lineSumAux]
  | cons c rest ih =>
    intro init a
    have hc := hv c (List.mem_cons_self ..)
    have hrest := fun x hx => hv x (List.mem_cons_of_mem c hx)
    by_cases hce : c = Empty
    · simp only [lineSumAux, if_pos hce]
      exact ih hrest init a
    · simp only [lineSumAux, if_neg hce]
      set init2 := (if init = Empty then c else init) with hinit2
      by_cases hm : c ≠ init2
      · rw [if_pos hm, if_pos hm]
        simp
      · rw [if_neg hm, if_neg hm]
        rcases hc with h1 | h1 | h1
        · exact absurd h1 hce
        · subst h1
          rw [if_pos rfl, if_neg (by decide)]
          have he : (-a - 1 : Int) = -(a + 1) := by ring
          rw [he]
          exact ih hrest init2 (a + 1)
        · subst h1
          rw [if_neg (by decide), if_pos rfl]
          have he : (-a + 1 : Int) = -(a - 1) := by ring
          rw [he]
          exact ih hrest init2 (a - 1)

theorem lineSum_anti (cells : List Nat)
    (hv : ∀ c ∈ cells, c = Empty ∨ c = Cross ∨ c = Nought) :
    lineSum Cross cells = -(lineSum Nought cells) := by
  have := lineSumAux_anti cells hv Empty 0
  simpa using this

theorem lineSumAux_le (p : Nat) (cells : List Nat) :
    ∀ init a, lineSumAux p cells init a ≤ a + cells.length ∨
      (0 ≤ lineSumAux p cells init a ∧ lineSumAux p cells init a ≤ cells.length) := by
  induction cells with
  | nil => intro init a; left; simp [lineSumAux]
  | cons c rest ih =>
    intro init a
    simp only [lineSumAux, List.length_cons]
    by_cases hce : c = Empty
    · rw [if_pos hce]
      rcases ih init a with h | h
      · left; push_cast; push_cast at h; omega
      · right; push_cast; push_cast at h; omega
    · rw [if_neg hce]
      set init2 := (if init = Empty then c else init) with hinit2
      by_cases hm : c ≠ init2
      · rw [if_pos hm]
        right
        constructor
        · exact le_refl 0
        · push_cast; omega
      · rw [if_neg hm]
        by_cases hcp : c = p
        · rw [if_pos hcp]
          rcases ih init2 (a + 1) with h | h
          · left; push_cast; push_cast at h; omega
          · right; push_cast; push_cast at h; omega
        · rw [if_neg hcp]
          rcases ih init2 (a - 1) with h | h
          · left; push_cast; push_cast at h; omega
          · right; push_cast; push_cast at h; omega

theorem lineSumAux_ge (p : Nat) (cells : List Nat) :
    ∀ init a, a - cells.length ≤ lineSumAux p cells init a ∨
      (lineSumAux p cells init a ≤ 0 ∧ -(cells.length : Int) ≤ lineSumAux p cells init a) := by
  induction cells with
  | nil => intro init a; left; simp [lineSumAux]
  | cons c rest ih =>
    intro init a
    simp only [lineSumAux, List.length_cons]
    by_cases hce : c = Empty
    · rw [if_pos hce]
      rcases ih init a with h | h
      · left; push_cast; push_cast at h; omega
      · right; push_cast; push_cast at h; omega
    · rw [if_neg hce]
      set init2 := (if init = Empty then c else init) with hinit2
      by_cases hm : c ≠ init2
      · rw [if_pos hm]
        right
        constructor
        · exact le_refl 0
        · push_cast; omega
      · rw [if_neg hm]
        by_cases hcp : c = p
        · rw [if_pos hcp]
          rcases ih init2 (a + 1) with h | h
          · left; push_cast; push_cast at h; omega
          · right; push_cast; push_cast at h; omega
        · rw [if_neg hcp]
          rcases ih init2 (a - 1) with h | h
          · left; push_cast; push_cast at h; omega
          · right; push_cast; push_cast at h; omega

theorem lineSum_bounds (p : Nat) (cells : List Nat) :
    -(cells.length : Int) ≤ lineSum p cells ∧ lineSum p cells ≤ cells.length := by
  unfold lineSum
  constructor
  · rcases lineSumAux_ge p cells Empty 0 with h | h
    · omega
    · exact h.2
  · rcases lineSumAux_le p cells Empty 0 with h | h
    · omega
    · exact h.2

theorem lineSumAux_eq_len (p : Nat) (cells : List Nat) :
    ∀ init a, 0 ≤ a → lineSumAux p cells init a = a + cells.length →
      ∀ c ∈ cells, c = p := by
  induction cells with
  | nil => intro init a _ _ c hc; cases hc
  | cons c rest ih =>
    intro init a ha heq x hx
    simp only [lineSumAux, List.length_cons] at heq
    push_cast at heq
    by_cases hce : c = Empty
    · rw [if_pos hce] at heq
      exfalso
      rcases lineSumAux_le p rest init a with h | h
      · omega
      · omega
    · rw [if_neg hce] at heq
      set init2 := (if init = Empty then c else init) with hinit2
      by_cases hm : c ≠ init2
      · rw [if_pos hm] at heq
        exfalso
        omega
      · rw [if_neg hm] at heq
        by_cases hcp : c = p
        · rw [if_pos hcp] at heq
          rcases List.mem_cons.mp hx with hx2 | hx2
          · subst hx2; exact hcp
          · exact ih init2 (a + 1) (by omega) (by push_cast; omega) x hx2
        · rw [if_neg hcp] at heq
          exfalso
          rcases lineSumAux_le p rest init2 (a - 1) with h | h
          · omega
          · omega

theorem lineSumAux_eq_neg_len (p : Nat) (cells : List Nat) :
    ∀ init a, a ≤ 0 → lineSumAux p cells init a = a - cells.length →
      ∀ c ∈ cells, c ≠ Empty ∧ c ≠ p := by
  induction cells with
  | nil => intro init a _ _ c hc; cases hc
  | cons c rest ih =>
    intro init a ha heq x hx
    simp only [lineSumAux, List.length_cons] at heq
    push_cast at heq
    by_cases hce : c = Empty
    · rw [if_pos hce] at heq
      exfalso
      rcases lineSumAux_ge p rest init a with h | h
      · omega
      · omega
    · rw [if_neg hce] at heq
      set init2 := (if init = Empty then c else init) with hinit2
      by_cases hm : c ≠ init2
      · rw [if_pos hm] at heq
        exfalso
        omega
      · rw [if_neg hm] at heq
        by_cases hcp : c = p
        · rw [if_pos hcp] at heq
          exfalso
          rcases lineSumAux_ge p rest init2 (a + 1) with h | h
          · omega
          · omega
        · rw [if_neg hcp] at heq
          rcases List.mem_cons.mp hx with hx2 | hx2
          · subst hx2; exact ⟨hce, hcp⟩
          · exact ih init2 (a - 1) (by omega) (by push_cast; omega) x hx2

theorem lineSum_eq_len (p : Nat) (cells : List Nat)
    (h : lineSum p cells = cells.length) : ∀ c ∈ cells, c = p :=
  lineSumAux_eq_len p cells Empty 0 le_rfl (by simpa [lineSum] using h)

theorem lineSum_eq_neg_len (p : Nat) (cells : List Nat)
    (h : lineSum p cells = -(cells.length : Int)) : ∀ c ∈ cells, c ≠ Empty ∧ c ≠ p :=
  lineSumAux_eq_neg_len p cells Empty 0 le_rfl (by simpa [lineSum] using h)

theorem validCells_cell (g : Game) (hv : validCells g) (i j : Nat) :
    cell g i j = Empty ∨ cell g i j = Cross ∨ cell g i j = Nought := by
  unfold cell
  rcases Nat.lt_or_ge i g.board.length with hi | hi
  · have hrmem : g.board.getD i [] ∈ g.board := by
      rw [List.getD_eq_getElem _ _ hi]
      exact List.getElem_mem hi
    rcases Nat.lt_or_ge j (g.board.getD i []).length with hj | hj
    · rw [List.getD_eq_getElem _ _ hj]
      exact hv _ hrmem _ (List.getElem_mem hj)
    · rw [List.getD_eq_default _ _ hj]
      left; rfl
  · rw [List.getD_eq_default _ _ hi]
    left; rfl

theorem cells_of_map_valid (g : Game) (hv : validCells g) (f h : Nat → Nat) (l : List Nat) :
    ∀ c ∈ l.map (fun t => cell g (f t) (h t)), c = Empty ∨ c = Cross ∨ c = Nought := by
  intro c hc
  obtain ⟨t, _, rfl⟩ := List.mem_map.mp hc
  exact validCells_cell g hv (f t) (h t)

theorem lines_clash (p : Nat) (l1 l2 : List Nat) (x : Nat) (hx1 : x ∈ l1) (hx2 : x ∈ l2)
    (h1 : lineSum p l1 = l1.length) (h2 : lineSum p l2 = -(l2.length : Int)) : False :=
  (lineSum_eq_neg_len p l2 h2 x hx2).2 (lineSum_eq_len p l1 h1 x hx1)

theorem cell_mem_rowCells (g : Game) (i j : Nat) (hj : j < g.size) :
    cell g i j ∈ rowCells g i :=
  List.mem_map.mpr ⟨j, List.mem_range.mpr hj, rfl⟩

theorem cell_mem_colCells (g : Game) (i j : Nat) (hj : j < g.size) :
    cell g j i ∈ colCells g i :=
  List.mem_map.mpr ⟨j, List.mem_range.mpr hj, rfl⟩

theorem outcomeDiags_anti (g : Game) (hv : validCells g) (acc : Int) :
    outcomeDiags g Cross acc = -(outcomeDiags g Nought (-acc)) := by
  have hdv : ∀ c ∈ diagCells g, c = Empty ∨ c = Cross ∨ c = Nought :=
    cells_of_map_valid g hv (fun t => t) (fun t => t) (List.range g.size)
  have hav : ∀ c ∈ adiagCells g, c = Empty ∨ c = Cross ∨ c = Nought :=
    cells_of_map_valid g hv (fun t => t) (fun t => g.size - 1 - t) (List.range g.size)
  have hd2 : lineSum Nought (diagCells g) = -(lineSum Cross (diagCells g)) := by
    have := lineSum_anti (diagCells g) hdv
    omega
  have ha2 : lineSum Nought (adiagCells g) = -(lineSum Cross (adiagCells g)) := by
    have := lineSum_anti (adiagCells g) hav
    omega
  simp only [outcomeDiags, hd2, ha2]
  set sz : Int := (g.size : Int) with hsz
  set dC := lineSum Cross (diagCells g) with hdC
  set aC := lineSum Cross (adiagCells g) with haC
  by_cases h1 : dC = sz
  · by_cases h1b : -dC = sz
    · have hz : sz = 0 := by omega
      rw [if_pos h1, if_pos h1b, hz]
      try ring
    · rw [if_pos h1, if_neg h1b, if_pos (show -dC = -sz by omega)]
      try ring
  · by_cases h2 : dC = -sz
    · rw [if_neg h1, if_pos h2, if_pos (show -dC = sz by omega)]
      try ring
    · rw [if_neg h1, if_neg h2, if_neg (show ¬(-dC = sz) by omega),
        if_neg (show ¬(-dC = -sz) by omega)]
      by_cases h3 : aC = sz
      · by_cases h3b : -aC = sz
        · have hz : sz = 0 := by omega
          rw [if_pos h3, if_pos h3b, hz]
          try ring
        · rw [if_pos h3, if_neg h3b, if_pos (show -aC = -sz by omega)]
          try ring
      · by_cases h4 : aC = -sz
        · rw [if_neg h3, if_pos h4, if_pos (show -aC = sz by omega)]
          try ring
        · rw [if_neg h3, if_neg h4, if_neg (show ¬(-aC = sz) by omega),
            if_neg (show ¬(-aC = -sz) by omega)]
          try ring

theorem outcomeRows_anti (g : Game) (hv : validCells g) (l : List Nat)
    (hl : ∀ i ∈ l, i < g.size) :
    ∀ acc, outcomeRows g Cross l acc = -(outcomeRows g Nought l (-acc)) := by
  induction l with
  | nil => intro acc; exact outcomeDiags_anti g hv acc
  | cons i rest ih =>
    intro acc
    have hi : i < g.size := hl i (List.mem_cons_self ..)
    have hrest : ∀ x ∈ rest, x < g.size := fun x hx => hl x (List.mem_cons_of_mem i hx)
    have hrv : ∀ c ∈ rowCells g i, c = Empty ∨ c = Cross ∨ c = Nought :=
      cells_of_map_valid g hv (fun _ => i) (fun t => t) (List.range g.size)
    have hcv : ∀ c ∈ colCells g i, c = Empty ∨ c = Cross ∨ c = Nought :=
      cells_of_map_valid g hv (fun t => t) (fun _ => i) (List.range g.size)
    have hl2 : lineSum Nought (rowCells g i) = -(lineSum Cross (rowCells g i)) := by
      have := lineSum_anti (rowCells g i) hrv
      omega
    have hc2 : lineSum Nought (colCells g i) = -(lineSum Cross (colCells g i)) := by
      have := lineSum_anti (colCells g i) hcv
      omega
    simp only [outcomeRows, hl2, hc2]
    set sz : Int := (g.size : Int) with hsz
    set lC := lineSum Cross (rowCells g i) with hlC
    set cC := lineSum Cross (colCells g i) with hcC
    have hrlen : ((rowCells g i).length : Int) = sz := by rw [rowCells_length]
    have hclen : ((colCells g i).length : Int) = sz := by rw [colCells_length]
    by_cases h1 : lC = sz ∨ cC = sz
    · rw [if_pos h1]
      by_cases h1b : -lC = sz ∨ -cC = sz
      · by_cases hz : sz = 0
        · rw [if_pos h1b, hz]
          try ring
        · exfalso
          rcases h1 with ha | ha <;> rcases h1b with hb | hb
          · omega
          · exact lines_clash Cross (rowCells g i) (colCells g i) (cell g i i)
              (cell_mem_rowCells g i i hi) (cell_mem_colCells g i i hi)
              (by omega) (by omega)
          · exact lines_clash Cross (colCells g i) (rowCells g i) (cell g i i)
              (cell_mem_colCells g i i hi) (cell_mem_rowCells g i i hi)
              (by omega) (by omega)
          · omega
      · rw [if_neg h1b, if_pos (show -lC = -sz ∨ -cC = -sz by
          rcases h1 with ha | ha
          · left; omega
          · right; omega)]
        try ring
    · by_cases h2 : lC = -sz ∨ cC = -sz
      · rw [if_neg h1, if_pos h2, if_pos (show -lC = sz ∨ -cC = sz by
          rcases h2 with ha | ha
          · left; omega
          · right; omega)]
        try ring
      · push_neg at h1 h2
        rw [if_neg (show ¬(lC = sz ∨ cC = sz) by push_neg; omega),
          if_neg (show ¬(lC = -sz ∨ cC = -sz) by push_neg; omega),
          if_neg (show ¬(-lC = sz ∨ -cC = sz) by push_neg; omega),
          if_neg (show ¬(-lC = -sz ∨ -cC = -sz) by push_neg; omega)]
        have harg : -acc + -lC + -cC = -(acc + lC + cC) := by ring
        rw [harg]
        exact ih hrest (acc + lC + cC)

theorem outcome_anti (g : Game) (hv : validCells g) :
    outcome g Cross = -(outcome g Nought) := by
  unfold outcome
  rw [if_neg (by decide), if_neg (by decide)]
  have := outcomeRows_anti g hv (List.range g.size)
    (fun i hi => List.mem_range.mp hi) 0
  simpa using this

theorem lineSumAux_const (p c : Nat) (hce : c ≠ Empty) :
    ∀ cells, (∀ x ∈ cells, x = c) →
      ∀ a, lineSumAux p cells c a = a + cells.length * (if c = p then 1 else -1) := by
  intro cells
  induction cells with
  | nil => intro _ a; simp [lineSumAux]
  | cons x rest ih =>
    intro hall a
    have hx : x = c := hall x (List.mem_cons_self ..)
    subst hx
    have hrest : ∀ y ∈ rest, y = x := fun y hy => hall y (List.mem_cons_of_mem x hy)
    simp only [lineSumAux, if_neg hce, List.length_cons]
    rw [if_neg (show ¬(x ≠ x) by simp)]
    rw [ih hrest (if x = p then a + 1 else a - 1)]
    by_cases hxp : x = p
    · simp only [if_pos hxp]
      push_cast
      ring
    · simp only [if_neg hxp]
      push_cast
      ring

theorem lineWin_lineSum (p : Nat) (cells : List Nat) (s : Nat) (h : lineWin cells = some s) :
    (s = p → lineSum p cells = cells.length) ∧
    (s ≠ p → lineSum p cells = -(cells.length : Int)) := by
  cases cells with
  | nil => simp [lineWin] at h
  | cons c rest =>
    rw [show lineWin (c :: rest)
        = (if c ≠ Empty ∧ ∀ x ∈ rest, x = c then some c else none) from rfl] at h
    by_cases hc : c ≠ Empty ∧ ∀ x ∈ rest, x = c
    · rw [if_pos hc] at h
      have hs : c = s := Option.some.inj h
      subst hs
      unfold lineSum
      simp only [lineSumAux, if_neg hc.1, List.length_cons]
      rw [show (if True then c else Empty) = c from rfl]
      rw [if_neg (show ¬(c ≠ c) by simp)]
      rw [lineSumAux_const p c hc.1 rest hc.2 (if c = p then (0:Int) + 1 else 0 - 1)]
      constructor
      · intro hcp
        simp only [if_pos hcp]
        push_cast
        ring
      · intro hcp
        simp only [if_neg hcp]
        push_cast
        ring
    · rw [if_neg hc] at h
      cases h

theorem lineWin_pm (g : Game) (p : Nat) (cells : List Nat) (hlen : cells.length = g.size)
    (hw : (lineWin cells).isSome = true) :
    lineSum p cells = (g.size : Int) ∨ lineSum p cells = -(g.size : Int) := by
  obtain ⟨s, hs⟩ := Option.isSome_iff_exists.mp hw
  have := lineWin_lineSum p cells s hs
  by_cases hsp : s = p
  · left
    rw [this.1 hsp, hlen]
  · right
    rw [this.2 hsp, hlen]

theorem outcomeRows_sent (g : Game) (p : Nat) (l : List Nat) :
    ∀ acc, (∃ i ∈ l, (lineWin (rowCells g i)).isSome = true ∨ (lineWin (colCells g i)).isSome = true) →
      outcomeRows g p l acc = 3 * (g.size : Int) * g.size ∨
      outcomeRows g p l acc = -(3 * (g.size : Int) * g.size) := by
  induction l with
  | nil =>
    rintro acc ⟨i, hi, _⟩
    cases hi
  | cons i rest ih =>
    rintro acc hex
    simp only [outcomeRows]
    set sz : Int := (g.size : Int) with hsz
    set lsum := lineSum p (rowCells g i) with hlsum
    set csum := lineSum p (colCells g i) with hcsum
    by_cases h1 : lsum = sz ∨ csum = sz
    · rw [if_pos h1]
      left; rfl
    · by_cases h2 : lsum = -sz ∨ csum = -sz
      · rw [if_neg h1, if_pos h2]
        right; rfl
      · rw [if_neg h1, if_neg h2]
        apply ih
        rcases hex with ⟨i2, hi2mem, hwin⟩
        rcases List.mem_cons.mp hi2mem with heq | hmem
        · exfalso
          subst heq
          push_neg at h1 h2
          rcases hwin with hw | hw
          · rcases lineWin_pm g p (rowCells g i2) (rowCells_length g i2) hw with hv2 | hv2
            · exact h1.1 hv2
            · exact h2.1 hv2
          · rcases lineWin_pm g p (colCells g i2) (colCells_length g i2) hw with hv2 | hv2
            · exact h1.2 hv2
            · exact h2.2 hv2
        · exact ⟨i2, hmem, hwin⟩

theorem outcomeRows_reach (g : Game) (p : Nat) (l : List Nat) :
    ∀ acc, outcomeRows g p l acc = 3 * (g.size : Int) * g.size ∨
      outcomeRows g p l acc = -(3 * (g.size : Int) * g.size) ∨
      ∃ acc2, outcomeRows g p l acc = outcomeDiags g p acc2 := by
  induction l with
  | nil =>
    intro acc
    exact Or.inr (Or.inr ⟨acc, rfl⟩)
  | cons i rest ih =>
    intro acc
    simp only [outcomeRows]
    by_cases h1 : lineSum p (rowCells g i) = (g.size : Int) ∨ lineSum p (colCells g i) = (g.size : Int)
    · rw [if_pos h1]
      left; rfl
    · by_cases h2 : lineSum p (rowCells g i) = -(g.size : Int) ∨ lineSum p (colCells g i) = -(g.size : Int)
      · rw [if_neg h1, if_pos h2]
        right; left; rfl
      · rw [if_neg h1, if_neg h2]
        exact ih _

theorem outcomeDiags_sent (g : Game) (p : Nat) (acc : Int)
    (h : (lineWin (diagCells g)).isSome = true ∨ (lineWin (adiagCells g)).isSome = true) :
    outcomeDiags g p acc = 3 * (g.size : Int) * g.size ∨
    outcomeDiags g p acc = -(3 * (g.size : Int) * g.size) := by
  simp only [outcomeDiags]
  set sz : Int := (g.size : Int) with hsz
  set dsum := lineSum p (diagCells g) with hdsum
  set adsum := lineSum p (adiagCells g) with hadsum
  by_cases h1 : dsum = sz
  · rw [if_pos h1]; left; rfl
  · by_cases h2 : dsum = -sz
    · rw [if_neg h1, if_pos h2]; right; rfl
    · rw [if_neg h1, if_neg h2]
      by_cases h3 : adsum = sz
      · rw [if_pos h3]; left; rfl
      · by_cases h4 : adsum = -sz
        · rw [if_neg h3, if_pos h4]; right; rfl
        · exfalso
          rcases h with hw | hw
          · rcases lineWin_pm g p (diagCells g) (diagCells_length g) hw with hv2 | hv2
            · exact h1 hv2
            · exact h2 hv2
          · rcases lineWin_pm g p (adiagCells g) (adiagCells_length g) hw with hv2 | hv2
            · exact h3 hv2
            · exact h4 hv2

theorem outcome_sent (g : Game) (p : Nat) (hp : p = Cross ∨ p = Nought)
    (h : hasFullLine g = true) :
    outcome g p = 3 * (g.size : Int) * g.size ∨
    outcome g p = -(3 * (g.size : Int) * g.size) := by
  unfold outcome
  rw [if_neg (by rcases hp with rfl | rfl <;> decide)]
  unfold hasFullLine at h
  simp only [Bool.or_eq_true, List.any_eq_true, List.mem_range] at h
  rcases h with (⟨i, hi, hw⟩ | hd) | ha
  · exact outcomeRows_sent g p (List.range g.size) 0 ⟨i, List.mem_range.mpr hi, hw⟩
  · rcases outcomeRows_reach g p (List.range g.size) 0 with h2 | h2 | ⟨acc2, heq⟩
    · left; exact h2
    · right; exact h2
    · rw [heq]
      exact outcomeDiags_sent g p acc2 (Or.inl hd)
  · rcases outcomeRows_reach g p (List.range g.size) 0 with h2 | h2 | ⟨acc2, heq⟩
    · left; exact h2
    · right; exact h2
    · rw [heq]
      exact outcomeDiags_sent g p acc2 (Or.inr ha)

/-- C5: on boards whose cells are all Empty/Cross/Nought the outcome
evaluator is antisymmetric: with no fully won line,
outcome(g, Cross) = -outcome(g, Nought); with a fully won line the two
results are the sentinels ±3·size² with opposite signs. -/
theorem outcome_antisymmetric (g : Game) (hv : validCells g) :
    (hasFullLine g = false → outcome g Cross = -(outcome g Nought)) ∧
    (hasFullLine g = true →
      (outcome g Cross = 3 * (g.size : Int) * g.size ∧
        outcome g Nought = -(3 * (g.size : Int) * g.size)) ∨
      (outcome g Cross = -(3 * (g.size : Int) * g.size) ∧
        outcome g Nought = 3 * (g.size : Int) * g.size)) := by
  have hanti := outcome_anti g hv
  constructor
  · intro _
    exact hanti
  · intro hfull
    rcases outcome_sent g Cross (Or.inl rfl) hfull with h | h
    · left
      exact ⟨h, by omega⟩
    · right
      exact ⟨h, by omega⟩

/-- Witness for C5 on a concrete 2×2 board with a won row. -/
theorem outcome_antisymmetric_witness :
    (hasFullLine ⟨[[Cross, Cross], [Nought, Empty]], 2, 1, Nought⟩ = false →
      outcome ⟨[[Cross, Cross], [Nought, Empty]], 2, 1, Nought⟩ Cross
        = -(outcome ⟨[[Cross, Cross], [Nought, Empty]], 2, 1, Nought⟩ Nought)) ∧
    (hasFullLine ⟨[[Cross, Cross], [Nought, Empty]], 2, 1, Nought⟩ = true →
      (outcome ⟨[[Cross, Cross], [Nought, Empty]], 2, 1, Nought⟩ Cross
          = 3 * ((⟨[[Cross, Cross], [Nought, Empty]], 2, 1, Nought⟩ : Game).size : Int)
            * (⟨[[Cross, Cross], [Nought, Empty]], 2, 1, Nought⟩ : Game).size ∧
        outcome ⟨[[Cross, Cross], [Nought, Empty]], 2, 1, Nought⟩ Nought
          = -(3 * ((⟨[[Cross, Cross], [Nought, Empty]], 2, 1, Nought⟩ : Game).size : Int)
            * (⟨[[Cross, Cross], [Nought, Empty]], 2, 1, Nought⟩ : Game).size)) ∨
      (outcome ⟨[[Cross, Cross], [Nought, Empty]], 2, 1, Nought⟩ Cross
          = -(3 * ((⟨[[Cross, Cross], [Nought, Empty]], 2, 1, Nought⟩ : Game).size : Int)
            * (⟨[[Cross, Cross], [Nought, Empty]], 2, 1, Nought⟩ : Game).size) ∧
        outcome ⟨[[Cross, Cross], [Nought, Empty]], 2, 1, Nought⟩ Nought
          = 3 * ((⟨[[Cross, Cross], [Nought, Empty]], 2, 1, Nought⟩ : Game).size : Int)
            * (⟨[[Cross, Cross], [Nought, Empty]], 2, 1, Nought⟩ : Game).size)) :=
  outcome_antisymmetric ⟨[[Cross, Cross], [Nought, Empty]], 2, 1, Nought⟩ (by decide)

/- ------------------------------------------------------------------ -/
/- C3                                                                  -/
/- ------------------------------------------------------------------ -/

theorem lineWin_eq (cells : List Nat) (h : cells ≠ []) :
    lineWin cells = if (lineFull cells).1 = true then some (lineFull cells).2 else none := by
  cases cells with
  | nil => exact absurd rfl h
  | cons c rest =>
    simp only [lineWin, lineFull]
    by_cases hc : c ≠ Empty ∧ ∀ x ∈ rest, x = c
    · rw [if_pos hc, if_pos]
      simp only [Bool.and_eq_true, decide_eq_true_eq, List.all_eq_true, beq_iff_eq]
      exact hc
    · rw [if_neg hc, if_neg]
      intro hcon
      rw [Bool.and_eq_true, decide_eq_true_eq, List.all_eq_true] at hcon
      exact hc ⟨hcon.1, fun x hx => beq_iff_eq.mp (hcon.2 x hx)⟩

theorem hasEmptyG_eq (g : Game) (hwf : WF g) : hasEmptyG g = hasEmptySpec g := by
  rcases hwf with ⟨hlen, hrows⟩
  rw [Bool.eq_iff_iff]
  unfold hasEmptyG hasEmptySpec
  simp only [List.any_eq_true, List.mem_range, beq_iff_eq]
  constructor
  · rintro ⟨r, hr, c, hc, hce⟩
    obtain ⟨i, hi, hri⟩ := List.mem_iff_getElem.mp hr
    obtain ⟨j, hj, hcj⟩ := List.mem_iff_getElem.mp hc
    have hrsz : r.length = g.size := hrows r hr
    refine ⟨i, by omega, j, by omega, ?_⟩
    unfold cell
    rw [List.getD_eq_getElem _ _ hi, hri, List.getD_eq_getElem _ _ hj, hcj]
    exact hce
  · rintro ⟨i, hi, j, hj, hcell⟩
    have hi2 : i < g.board.length := by omega
    have hr : g.board[i] ∈ g.board := List.getElem_mem hi2
    have hj2 : j < (g.board[i]).length := by rw [hrows _ hr]; omega
    refine ⟨g.board[i], hr, (g.board[i])[j], List.getElem_mem hj2, ?_⟩
    unfold cell at hcell
    rw [List.getD_eq_getElem _ _ hi2, List.getD_eq_getElem _ _ hj2] at hcell
    exact hcell

theorem isDoneRows_find (g : Game) (hsz : 1 ≤ g.size) (l : List Nat) :
    isDoneRows g l =
      match l.findSome?
          (fun i => (lineWin (rowCells g i)).orElse (fun _ => lineWin (colCells g i))) with
      | some s => (true, s)
      | none => isDoneRows g [] := by
  induction l with
  | nil => simp
  | cons i rest ih =>
    have hrne : rowCells g i ≠ [] := by
      apply List.ne_nil_of_length_pos
      rw [rowCells_length]; omega
    have hcne : colCells g i ≠ [] := by
      apply List.ne_nil_of_length_pos
      rw [colCells_length]; omega
    rw [List.findSome?_cons]
    by_cases hr : (lineFull (rowCells g i)).1 = true
    · have hw : lineWin (rowCells g i) = some (lineFull (rowCells g i)).2 := by
        rw [lineWin_eq _ hrne, if_pos hr]
      simp only [isDoneRows, if_pos hr, hw]
      rfl
    · have hw : lineWin (rowCells g i) = none := by
        rw [lineWin_eq _ hrne, if_neg hr]
      by_cases hc : (lineFull (colCells g i)).1 = true
      · have hwc : lineWin (colCells g i) = some (lineFull (colCells g i)).2 := by
          rw [lineWin_eq _ hcne, if_pos hc]
        simp only [isDoneRows, if_neg hr, if_pos hc, hw, hwc]
        rfl
      · have hwc : lineWin (colCells g i) = none := by
          rw [lineWin_eq _ hcne, if_neg hc]
        simp only [isDoneRows, if_neg hr, if_neg hc, hw, hwc]
        rw [ih]
        rfl

/-- C3: on well-formed boards the isDone method computes exactly the
terminal detector described by the spec: the first fully-occupied
single-symbol line in scan order (row i, column i, ascending i, then
diagonal, then anti-diagonal) wins, otherwise a full board is a draw
and a board with an Empty cell is not done; in particular a partially
filled line is never declared a win. -/
theorem isDone_eq_spec (g : Game) (hwf : WF g) : isDone g = isDoneSpec g := by
  by_cases hsz : g.size = 0
  · unfold isDone isDoneSpec firstWinSpec hasEmptySpec isDoneRows
    simp [hsz, diagCells, adiagCells, lineFull, lineWin, hasEmptyG_eq g hwf]
  · have hsz1 : 1 ≤ g.size := by omega
    have hdne : diagCells g ≠ [] := by
      apply List.ne_nil_of_length_pos
      rw [diagCells_length]; omega
    have hane : adiagCells g ≠ [] := by
      apply List.ne_nil_of_length_pos
      rw [adiagCells_length]; omega
    unfold isDone isDoneSpec firstWinSpec
    rw [isDoneRows_find g hsz1 (List.range g.size)]
    cases hfind : (List.range g.size).findSome?
        (fun i => (lineWin (rowCells g i)).orElse (fun _ => lineWin (colCells g i))) with
    | some s => rfl
    | none =>
      by_cases hd : (lineFull (diagCells g)).1 = true
      · have hw : lineWin (diagCells g) = some (lineFull (diagCells g)).2 := by
          rw [lineWin_eq _ hdne, if_pos hd]
        simp only [isDoneRows, if_pos hd, hw]
        rfl
      · have hw : lineWin (diagCells g) = none := by
          rw [lineWin_eq _ hdne, if_neg hd]
        by_cases ha : (lineFull (adiagCells g)).1 = true
        · have hwa : lineWin (adiagCells g) = some (lineFull (adiagCells g)).2 := by
            rw [lineWin_eq _ hane, if_pos ha]
          simp only [isDoneRows, if_neg hd, if_pos ha, hw, hwa]
          rfl
        · have hwa : lineWin (adiagCells g) = none := by
            rw [lineWin_eq _ hane, if_neg ha]
          simp only [isDoneRows, if_neg hd, if_neg ha, hw, hwa]
          rw [hasEmptyG_eq g hwf]
          cases hhe : hasEmptySpec g <;> simp [hhe]

/-- Witness for C3 on a concrete 3×3 board with a won column. -/
theorem isDone_eq_spec_witness :
    isDone ⟨[[Cross, Nought, Empty], [Cross, Nought, Empty], [Cross, Empty, Empty]], 3, 4, Nought⟩
      = isDoneSpec ⟨[[Cross, Nought, Empty], [Cross, Nought, Empty], [Cross, Empty, Empty]], 3, 4, Nought⟩ :=
  isDone_eq_spec _ (by decide)

/-- Witness for C6's amended theorem on a concrete 2×2 game. -/
theorem Play_frame_witness :
    ((Play ⟨[[Empty, Empty], [Empty, Empty]], 2, 4, Cross⟩ 1 0 Cross).1).isOk = true ∧
    ((Play ⟨[[Empty, Empty], [Empty, Empty]], 2, 4, Cross⟩ 1 0 Cross).2).size = 2 ∧
    ((Play ⟨[[Empty, Empty], [Empty, Empty]], 2, 4, Cross⟩ 1 0 Cross).2).count = 4 - 1 ∧
    ((Play ⟨[[Empty, Empty], [Empty, Empty]], 2, 4, Cross⟩ 1 0 Cross).2).currPlayer
      = (if Cross = Cross then Nought else Cross) ∧
    cell (Play ⟨[[Empty, Empty], [Empty, Empty]], 2, 4, Cross⟩ 1 0 Cross).2 1 0 = Cross ∧
    (∀ i j : Nat, ¬(i = 1 ∧ j = 0) →
      cell (Play ⟨[[Empty, Empty], [Empty, Empty]], 2, 4, Cross⟩ 1 0 Cross).2 i j
        = cell ⟨[[Empty, Empty], [Empty, Empty]], 2, 4, Cross⟩ i j) ∧
    ((Play ⟨[[Empty, Empty], [Empty, Empty]], 2, 4, Cross⟩ 1 0 Cross).2).board.length
      = (⟨[[Empty, Empty], [Empty, Empty]], 2, 4, Cross⟩ : Game).board.length :=
  Play_frame ⟨[[Empty, Empty], [Empty, Empty]], 2, 4, Cross⟩ 1 0 Cross
    (by decide) rfl (by norm_num) (by decide) (Or.inl rfl)


/- ------------------------------------------------------------------ -/
/- C9: tie-break and scan order                                        -/
/- ------------------------------------------------------------------ -/

theorem value_le_max (a b : move) : a.value ≤ (max a b).value ∧ b.value ≤ (max a b).value := by
  unfold max
  split_ifs with h
  · exact ⟨le_rfl, h⟩
  · exact ⟨by omega, le_rfl⟩

theorem max_eq_or (a b : move) : max a b = a ∨ max a b = b := by
  unfold max
  split_ifs
  · left; rfl
  · right; rfl

theorem min_eq_or (a b : move) : min a b = a ∨ min a b = b := by
  unfold min
  split_ifs
  · left; rfl
  · right; rfl

theorem enumFrom_pairwise {α : Type} (l : List α) :
    ∀ k, (List.enumFrom k l).Pairwise (fun p q => p.1 < q.1) := by
  induction l with
  | nil => intro k; simp
  | cons a rest ih =>
    intro k
    rw [show List.enumFrom k (a :: rest) = (k, a) :: List.enumFrom (k + 1) rest from rfl]
    refine List.Pairwise.cons ?_ (ih (k + 1))
    intro q hq
    obtain ⟨i, x⟩ := q
    have := (List.mk_mem_enumFrom_iff_le_and_getElem?_sub.mp hq).1
    simpa using by omega

theorem flatMap_enum_pairwise (bd : List (List Nat)) :
    ∀ k, ((List.enumFrom k bd).flatMap
        (fun p => p.2.enum.map (fun q => (p.1, q.1, q.2)))).Pairwise
      (fun c d => c.1 < d.1 ∨ (c.1 = d.1 ∧ c.2.1 < d.2.1)) := by
  induction bd with
  | nil => intro k; simp
  | cons r rest ih =>
    intro k
    rw [show List.enumFrom k (r :: rest) = (k, r) :: List.enumFrom (k + 1) rest from rfl]
    rw [List.flatMap_cons, List.pairwise_append]
    refine ⟨?_, ih (k + 1), ?_⟩
    · exact List.Pairwise.map _ (fun a b hab => Or.inr ⟨rfl, hab⟩) (enumFrom_pairwise r 0)
    · rintro a ha b hb
      obtain ⟨qa, hqa, rfl⟩ := List.mem_map.mp ha
      obtain ⟨p, hp, hb2⟩ := List.mem_flatMap.mp hb
      obtain ⟨qb, hqb, rfl⟩ := List.mem_map.mp hb2
      left
      obtain ⟨pi, px⟩ := p
      have := (List.mk_mem_enumFrom_iff_le_and_getElem?_sub.mp hp).1
      simpa using by omega

theorem cellsOf_pairwise (g : Game) :
    (cellsOf g).Pairwise (fun c d => c.1 < d.1 ∨ (c.1 = d.1 ∧ c.2.1 < d.2.1)) :=
  flatMap_enum_pairwise g.board 0

/-- C9: the search loops keep the earlier-scanned candidate on ties and
replace the running best only on a strictly better score (max keeps its
first argument unless the second is strictly greater, min keeps its
first argument unless the second is strictly smaller), and the
candidate enumeration cellsOf is in row-major order (row ascending,
then column ascending). -/
theorem tie_break_row_major :
    (∀ a b : move, b.value ≤ a.value → max a b = a) ∧
    (∀ a b : move, a.value < b.value → max a b = b) ∧
    (∀ a b : move, a.value ≤ b.value → min a b = a) ∧
    (∀ a b : move, b.value < a.value → min a b = b) ∧
    (∀ g : Game, (cellsOf g).Pairwise
      (fun c d => c.1 < d.1 ∨ (c.1 = d.1 ∧ c.2.1 < d.2.1))) := by
  refine ⟨?_, ?_, ?_, ?_, fun g => cellsOf_pairwise g⟩
  · intro a b h
    unfold max
    rw [if_pos h]
  · intro a b h
    unfold max
    rw [if_neg (by omega)]
  · intro a b h
    unfold min
    rw [if_pos h]
  · intro a b h
    unfold min
    rw [if_neg (by omega)]

/-- Witness for C9: ties keep the earlier candidate, strict improvement
replaces it. -/
theorem tie_break_row_major_witness :
    max ⟨3, 0, 0⟩ ⟨3, 1, 1⟩ = ⟨3, 0, 0⟩ ∧
    max ⟨3, 0, 0⟩ ⟨4, 1, 1⟩ = ⟨4, 1, 1⟩ ∧
    min ⟨3, 0, 0⟩ ⟨3, 1, 1⟩ = ⟨3, 0, 0⟩ ∧
    min ⟨3, 0, 0⟩ ⟨2, 1, 1⟩ = ⟨2, 1, 1⟩ :=
  ⟨tie_break_row_major.1 _ _ (by norm_num),
   tie_break_row_major.2.1 _ _ (by norm_num),
   tie_break_row_major.2.2.1 _ _ (by norm_num),
   tie_break_row_major.2.2.2.1 _ _ (by norm_num)⟩

/- ------------------------------------------------------------------ -/
/- C8: cut-off returns the last evaluated child                        -/
/- ------------------------------------------------------------------ -/

/-- C8: when the cut-off condition beta ≤ alpha becomes true after
evaluating a child, both the maximizing and the minimizing loop return
the most recently evaluated child (its score with the candidate cell's
coordinates), not the accumulated best; when that child is strictly
worse than the accumulated best, the returned move is therefore not the
best one found so far. -/
theorem cutoff_last_child (g : Game) (player curr : Nat)
    (f : Game → Int → Int → Nat → Nat → move) (i j : Nat)
    (rest : List (Nat × Nat × Nat)) (p : move) (alpha beta : Int) :
    (beta ≤ (max p ⟨(f (Play g (i : Int) (j : Int) player).2 alpha beta i j).value,
        (i : Int), (j : Int)⟩).value →
      abMaxLoop g player f ((i, j, Empty) :: rest) p alpha beta =
        ⟨(f (Play g (i : Int) (j : Int) player).2 alpha beta i j).value,
          (i : Int), (j : Int)⟩) ∧
    ((min p ⟨(f (Play g (i : Int) (j : Int) curr).2 alpha beta i j).value,
        (i : Int), (j : Int)⟩).value ≤ alpha →
      abMinLoop g curr f ((i, j, Empty) :: rest) p beta alpha =
        ⟨(f (Play g (i : Int) (j : Int) curr).2 alpha beta i j).value,
          (i : Int), (j : Int)⟩) ∧
    ((f (Play g (i : Int) (j : Int) player).2 alpha beta i j).value < p.value →
      beta ≤ p.value →
      abMaxLoop g player f ((i, j, Empty) :: rest) p alpha beta ≠ p ∧
      (abMaxLoop g player f ((i, j, Empty) :: rest) p alpha beta).value < p.value) := by
  refine ⟨?_, ?_, ?_⟩
  · intro h
    simp only [abMaxLoop]
    rw [if_neg (show ¬((Empty : Nat) ≠ Empty) by simp)]
    rw [if_pos h]
  · intro h
    simp only [abMinLoop]
    rw [if_neg (show ¬((Empty : Nat) ≠ Empty) by simp)]
    rw [if_pos h]
  · intro hlt hbp
    have hcut : beta ≤ (max p ⟨(f (Play g (i : Int) (j : Int) player).2 alpha beta i j).value,
        (i : Int), (j : Int)⟩).value :=
      le_trans hbp (value_le_max _ _).1
    have hres : abMaxLoop g player f ((i, j, Empty) :: rest) p alpha beta =
        ⟨(f (Play g (i : Int) (j : Int) player).2 alpha beta i j).value,
          (i : Int), (j : Int)⟩ := by
      simp only [abMaxLoop]
      rw [if_neg (show ¬((Empty : Nat) ≠ Empty) by simp)]
      rw [if_pos hcut]
    rw [hres]
    constructor
    · intro heq
      have hv := congrArg move.value heq
      simp only at hv
      omega
    · exact hlt

/-- Witness for C8: a concrete cut-off where the returned child (score
0) is strictly worse than the accumulated best (score 7). -/
theorem cutoff_last_child_witness :
    abMaxLoop ⟨[[Empty]], 1, 1, Cross⟩ Cross (fun _ _ _ _ _ => ⟨0, 5, 5⟩)
      [(0, 0, Empty)] ⟨7, 2, 2⟩ 7 1 = ⟨0, 0, 0⟩ :=
  (cutoff_last_child ⟨[[Empty]], 1, 1, Cross⟩ Cross Cross (fun _ _ _ _ _ => ⟨0, 5, 5⟩)
    0 0 [] ⟨7, 2, 2⟩ 7 1).1 (by decide)

/- ------------------------------------------------------------------ -/
/- C10: termination via fuel                                           -/
/- ------------------------------------------------------------------ -/

theorem abMaxLoopO_eq (g : Game) (player : Nat)
    (f : Game → Int → Int → Nat → Nat → move)
    (fo : Game → Int → Int → Nat → Nat → Option move)
    (hf : ∀ ng a b i j, fo ng a b i j = some (f ng a b i j)) :
    ∀ cells p alpha beta,
      abMaxLoopO g player fo cells p alpha beta
        = some (abMaxLoop g player f cells p alpha beta) := by
  intro cells
  induction cells with
  | nil => intro p alpha beta; rfl
  | cons c rest ih =>
    intro p alpha beta
    obtain ⟨i, j, e⟩ := c
    by_cases he : e ≠ Empty
    · simp only [abMaxLoopO, abMaxLoop, if_pos he]
      exact ih p alpha beta
    · simp only [abMaxLoopO, abMaxLoop, if_neg he, hf]
      by_cases hcut : beta ≤ (max p ⟨(f (Play g (i : Int) (j : Int) player).2 alpha beta i j).value,
          (i : Int), (j : Int)⟩).value
      · rw [if_pos hcut, if_pos hcut]
      · rw [if_neg hcut, if_neg hcut]
        exact ih _ _ _

theorem abMinLoopO_eq (g : Game) (curr : Nat)
    (f : Game → Int → Int → Nat → Nat → move)
    (fo : Game → Int → Int → Nat → Nat → Option move)
    (hf : ∀ ng a b i j, fo ng a b i j = some (f ng a b i j)) :
    ∀ cells p beta alpha,
      abMinLoopO g curr fo cells p beta alpha
        = some (abMinLoop g curr f cells p beta alpha) := by
  intro cells
  induction cells with
  | nil => intro p beta alpha; rfl
  | cons c rest ih =>
    intro p beta alpha
    obtain ⟨i, j, e⟩ := c
    by_cases he : e ≠ Empty
    · simp only [abMinLoopO, abMinLoop, if_pos he]
      exact ih p beta alpha
    · simp only [abMinLoopO, abMinLoop, if_neg he, hf]
      by_cases hcut : (min p ⟨(f (Play g (i : Int) (j : Int) curr).2 alpha beta i j).value,
          (i : Int), (j : Int)⟩).value ≤ alpha
      · rw [if_pos hcut, if_pos hcut]
      · rw [if_neg hcut, if_neg hcut]
        exact ih _ _ _

/-- C10: the serial alpha-beta search is total: a fuelled mirror of the
recursion that fails when its fuel runs out always succeeds as soon as
the fuel exceeds the depth argument, and computes the same move — the
recursion depth is bounded by depth because every recursive call
decreases depth by exactly 1 and depth 0 (or a finished game) returns
immediately. -/
theorem alphaBetaFuel_eq :
    ∀ (fuel : Nat) (g : Game) (depth : Nat) (alpha beta x y : Int) (player : Nat),
      depth < fuel →
      alphaBetaFuel fuel g depth alpha beta x y player
        = some (alphaBetaPruningSerial g depth alpha beta x y player) := by
  intro fuel
  induction fuel with
  | zero =>
    intro g depth alpha beta x y player h
    omega
  | succ fl ih =>
    intro g depth alpha beta x y player h
    cases depth with
    | zero => rfl
    | succ d =>
      simp only [alphaBetaFuel, alphaBetaPruningSerial]
      by_cases hdone : (isDone g).1
      · rw [if_pos hdone, if_pos hdone]
      · rw [if_neg hdone, if_neg hdone]
        by_cases hturn : g.currPlayer = player
        · rw [if_pos hturn, if_pos hturn]
          exact abMaxLoopO_eq g player _ _
            (fun ng a b i j => ih ng d a b i j player (by omega))
            (cellsOf g) ⟨alpha, x, y⟩ alpha beta
        · rw [if_neg hturn, if_neg hturn]
          exact abMinLoopO_eq g g.currPlayer _ _
            (fun ng a b i j => ih ng d a b i j player (by omega))
            (cellsOf g) ⟨beta, x, y⟩ beta alpha

/-- Witness for C10 on a concrete 1×1 game at depth 1 with fuel 2. -/
theorem alphaBetaFuel_eq_witness :
    alphaBetaFuel 2 ⟨[[Empty]], 1, 1, Cross⟩ 1 (-10) 10 (-1) (-1) Cross
      = some (alphaBetaPruningSerial ⟨[[Empty]], 1, 1, Cross⟩ 1 (-10) 10 (-1) (-1) Cross) :=
  alphaBetaFuel_eq 2 ⟨[[Empty]], 1, 1, Cross⟩ 1 (-10) 10 (-1) (-1) Cross (by omega)



/- ------------------------------------------------------------------ -/
/- C1 and C7 support                                                   -/
/- ------------------------------------------------------------------ -/

theorem mem_cellsOf (g : Game) (i j e : Nat) :
    (i, j, e) ∈ cellsOf g ↔ ∃ r, g.board[i]? = some r ∧ r[j]? = some e := by
  unfold cellsOf
  rw [List.mem_flatMap]
  constructor
  · rintro ⟨p, hp, hmem⟩
    obtain ⟨q, hq, heq⟩ := List.mem_map.mp hmem
    obtain ⟨pi, pr⟩ := p
    obtain ⟨qj, qe⟩ := q
    simp only [Prod.mk.injEq] at heq
    obtain ⟨h1, h2, h3⟩ := heq
    subst h1
    subst h2
    subst h3
    exact ⟨pr, List.mk_mem_enum_iff_getElem?.mp hp, List.mk_mem_enum_iff_getElem?.mp hq⟩
  · rintro ⟨r, hr, he⟩
    exact ⟨(i, r), List.mk_mem_enum_iff_getElem?.mpr hr,
      List.mem_map.mpr ⟨(j, e), List.mk_mem_enum_iff_getElem?.mpr he, rfl⟩⟩

theorem cellsOf_wf (g : Game) (hwf : WF g) (i j e : Nat) (h : (i, j, e) ∈ cellsOf g) :
    i < g.size ∧ j < g.size ∧ cell g i j = e := by
  obtain ⟨r, hr, he⟩ := (mem_cellsOf g i j e).mp h
  obtain ⟨hi, hri⟩ := List.getElem?_eq_some_iff.mp hr
  obtain ⟨hj, hje⟩ := List.getElem?_eq_some_iff.mp he
  have hrmem : r ∈ g.board := hri ▸ List.getElem_mem hi
  have hrlen : r.length = g.size := hwf.2 r hrmem
  have hlen := hwf.1
  refine ⟨by omega, by omega, ?_⟩
  unfold cell
  rw [List.getD_eq_getElem _ _ hi, hri, List.getD_eq_getElem _ _ hj]
  exact hje

theorem isDoneRows_false_hasEmpty (g : Game) (l : List Nat)
    (h : (isDoneRows g l).1 = false) : hasEmptyG g = true := by
  induction l with
  | nil =>
    simp only [isDoneRows] at h
    by_cases hd : (lineFull (diagCells g)).1 = true
    · rw [if_pos hd] at h
      simp at h
    · rw [if_neg hd] at h
      by_cases ha : (lineFull (adiagCells g)).1 = true
      · rw [if_pos ha] at h
        simp at h
      · rw [if_neg ha] at h
        simpa using h
  | cons i rest ih =>
    simp only [isDoneRows] at h
    by_cases hr : (lineFull (rowCells g i)).1 = true
    · rw [if_pos hr] at h
      simp at h
    · rw [if_neg hr] at h
      by_cases hc : (lineFull (colCells g i)).1 = true
      · rw [if_pos hc] at h
        simp at h
      · rw [if_neg hc] at h
        exact ih h

theorem not_done_empty (g : Game) (h : (isDone g).1 = false) :
    ∃ i j, (i, j, Empty) ∈ cellsOf g := by
  have hhe : hasEmptyG g = true := isDoneRows_false_hasEmpty g (List.range g.size) h
  unfold hasEmptyG at hhe
  simp only [List.any_eq_true, beq_iff_eq] at hhe
  obtain ⟨r, hr, c, hc, hce⟩ := hhe
  subst hce
  obtain ⟨i, hi, hri⟩ := List.mem_iff_getElem.mp hr
  obtain ⟨j, hj, hcj⟩ := List.mem_iff_getElem.mp hc
  refine ⟨i, j, (mem_cellsOf g i j Empty).mpr ⟨r, ?_, ?_⟩⟩
  · rw [List.getElem?_eq_getElem hi, hri]
  · rw [List.getElem?_eq_getElem hj, hcj]

theorem abMaxLoop_noEmpty (g : Game) (player : Nat) (f : Game → Int → Int → Nat → Nat → move) :
    ∀ (cells : List (Nat × Nat × Nat)) p alpha beta, (∀ c ∈ cells, c.2.2 ≠ Empty) →
      abMaxLoop g player f cells p alpha beta = p := by
  intro cells
  induction cells with
  | nil => intro p alpha beta _; rfl
  | cons c rest ih =>
    intro p alpha beta hne
    obtain ⟨i, j, e⟩ := c
    have he : e ≠ Empty := hne (i, j, e) (List.mem_cons_self ..)
    simp only [abMaxLoop, if_pos he]
    exact ih p alpha beta (fun c2 hc2 => hne c2 (List.mem_cons_of_mem _ hc2))

theorem abMinLoop_noEmpty (g : Game) (curr : Nat) (f : Game → Int → Int → Nat → Nat → move) :
    ∀ (cells : List (Nat × Nat × Nat)) p beta alpha, (∀ c ∈ cells, c.2.2 ≠ Empty) →
      abMinLoop g curr f cells p beta alpha = p := by
  intro cells
  induction cells with
  | nil => intro p beta alpha _; rfl
  | cons c rest ih =>
    intro p beta alpha hne
    obtain ⟨i, j, e⟩ := c
    have he : e ≠ Empty := hne (i, j, e) (List.mem_cons_self ..)
    simp only [abMinLoop, if_pos he]
    exact ih p beta alpha (fun c2 hc2 => hne c2 (List.mem_cons_of_mem _ hc2))

theorem abMaxLoop_coords (g : Game) (player : Nat) (f : Game → Int → Int → Nat → Nat → move) :
    ∀ (cells : List (Nat × Nat × Nat)) p alpha beta, (∀ c ∈ cells, c ∈ cellsOf g) →
      abMaxLoop g player f cells p alpha beta = p ∨
      GoodCoord g (abMaxLoop g player f cells p alpha beta) := by
  intro cells
  induction cells with
  | nil => intro p alpha beta _; left; rfl
  | cons c rest ih =>
    intro p alpha beta hsub
    obtain ⟨i, j, e⟩ := c
    have hsubrest : ∀ c2 ∈ rest, c2 ∈ cellsOf g :=
      fun c2 hc2 => hsub c2 (List.mem_cons_of_mem _ hc2)
    by_cases he : e ≠ Empty
    · simp only [abMaxLoop, if_pos he]
      exact ih p alpha beta hsubrest
    · push_neg at he
      subst he
      simp only [abMaxLoop]
      rw [if_neg (show ¬((Empty : Nat) ≠ Empty) by simp)]
      have hgood : GoodCoord g ⟨(f (Play g (i : Int) (j : Int) player).2 alpha beta i j).value,
          (i : Int), (j : Int)⟩ :=
        ⟨i, j, rfl, rfl, hsub (i, j, Empty) (List.mem_cons_self ..)⟩
      by_cases hcut : beta ≤ (max p ⟨(f (Play g (i : Int) (j : Int) player).2 alpha beta i j).value,
          (i : Int), (j : Int)⟩).value
      · rw [if_pos hcut]
        right
        exact hgood
      · rw [if_neg hcut]
        rcases ih (max p ⟨(f (Play g (i : Int) (j : Int) player).2 alpha beta i j).value,
            (i : Int), (j : Int)⟩)
            (max p ⟨(f (Play g (i : Int) (j : Int) player).2 alpha beta i j).value,
            (i : Int), (j : Int)⟩).value beta hsubrest with hres | hres
        · rw [hres]
          rcases max_eq_or p ⟨(f (Play g (i : Int) (j : Int) player).2 alpha beta i j).value,
              (i : Int), (j : Int)⟩ with hmax | hmax
          · rw [hmax]
            left
            rfl
          · rw [hmax]
            right
            exact hgood
        · right
          exact hres

theorem abMinLoop_coords (g : Game) (curr : Nat) (f : Game → Int → Int → Nat → Nat → move) :
    ∀ (cells : List (Nat × Nat × Nat)) p beta alpha, (∀ c ∈ cells, c ∈ cellsOf g) →
      abMinLoop g curr f cells p beta alpha = p ∨
      GoodCoord g (abMinLoop g curr f cells p beta alpha) := by
  intro cells
  induction cells with
  | nil => intro p beta alpha _; left; rfl
  | cons c rest ih =>
    intro p beta alpha hsub
    obtain ⟨i, j, e⟩ := c
    have hsubrest : ∀ c2 ∈ rest, c2 ∈ cellsOf g :=
      fun c2 hc2 => hsub c2 (List.mem_cons_of_mem _ hc2)
    by_cases he : e ≠ Empty
    · simp only [abMinLoop, if_pos he]
      exact ih p beta alpha hsubrest
    · push_neg at he
      subst he
      simp only [abMinLoop]
      rw [if_neg (show ¬((Empty : Nat) ≠ Empty) by simp)]
      have hgood : GoodCoord g ⟨(f (Play g (i : Int) (j : Int) curr).2 alpha beta i j).value,
          (i : Int), (j : Int)⟩ :=
        ⟨i, j, rfl, rfl, hsub (i, j, Empty) (List.mem_cons_self ..)⟩
      by_cases hcut : (min p ⟨(f (Play g (i : Int) (j : Int) curr).2 alpha beta i j).value,
          (i : Int), (j : Int)⟩).value ≤ alpha
      · rw [if_pos hcut]
        right
        exact hgood
      · rw [if_neg hcut]
        rcases ih (min p ⟨(f (Play g (i : Int) (j : Int) curr).2 alpha beta i j).value,
            (i : Int), (j : Int)⟩)
            (min p ⟨(f (Play g (i : Int) (j : Int) curr).2 alpha beta i j).value,
            (i : Int), (j : Int)⟩).value alpha hsubrest with hres | hres
        · rw [hres]
          rcases min_eq_or p ⟨(f (Play g (i : Int) (j : Int) curr).2 alpha beta i j).value,
              (i : Int), (j : Int)⟩ with hmin | hmin
          · rw [hmin]
            left
            rfl
          · rw [hmin]
            right
            exact hgood
        · right
          exact hres

theorem outcomeDiags_lb (g : Game) (p : Nat) (acc : Int) :
    -(3 * (g.size : Int) * g.size) ≤ outcomeDiags g p acc ∨
    acc - (2 * (g.size : Int) - 2) ≤ outcomeDiags g p acc := by
  simp only [outcomeDiags]
  have hsz0 : (0 : Int) ≤ (g.size : Int) := Int.natCast_nonneg g.size
  have hsq : (0 : Int) ≤ (g.size : Int) * g.size := mul_nonneg hsz0 hsz0
  have hd := lineSum_bounds p (diagCells g)
  have ha := lineSum_bounds p (adiagCells g)
  have hdl : ((diagCells g).length : Int) = (g.size : Int) := by
    rw [diagCells_length]
  have hal : ((adiagCells g).length : Int) = (g.size : Int) := by
    rw [adiagCells_length]
  rw [hdl] at hd
  rw [hal] at ha
  by_cases h1 : lineSum p (diagCells g) = (g.size : Int)
  · rw [if_pos h1]
    left
    nlinarith
  · by_cases h2 : lineSum p (diagCells g) = -(g.size : Int)
    · rw [if_neg h1, if_pos h2]
      left
      exact le_rfl
    · rw [if_neg h1, if_neg h2]
      by_cases h3 : lineSum p (adiagCells g) = (g.size : Int)
      · rw [if_pos h3]
        left
        nlinarith
      · by_cases h4 : lineSum p (adiagCells g) = -(g.size : Int)
        · rw [if_neg h3, if_pos h4]
          left
          exact le_rfl
        · rw [if_neg h3, if_neg h4]
          right
          omega

theorem outcomeRows_lb (g : Game) (p : Nat) (l : List Nat) :
    ∀ acc : Int,
      -(3 * (g.size : Int) * g.size) ≤ outcomeRows g p l acc ∨
      acc - (2 * (g.size : Int) - 2) * l.length - (2 * (g.size : Int) - 2)
        ≤ outcomeRows g p l acc := by
  induction l with
  | nil =>
    intro acc
    rcases outcomeDiags_lb g p acc with h | h
    · left
      exact h
    · right
      simpa using h
  | cons i rest ih =>
    intro acc
    simp only [outcomeRows, List.length_cons]
    have hsz0 : (0 : Int) ≤ (g.size : Int) := Int.natCast_nonneg g.size
    have hsq : (0 : Int) ≤ (g.size : Int) * g.size := mul_nonneg hsz0 hsz0
    have hr := lineSum_bounds p (rowCells g i)
    have hc := lineSum_bounds p (colCells g i)
    have hrl : ((rowCells g i).length : Int) = (g.size : Int) := by
      rw [rowCells_length]
    have hcl : ((colCells g i).length : Int) = (g.size : Int) := by
      rw [colCells_length]
    rw [hrl] at hr
    rw [hcl] at hc
    by_cases h1 : lineSum p (rowCells g i) = (g.size : Int) ∨
        lineSum p (colCells g i) = (g.size : Int)
    · rw [if_pos h1]
      left
      nlinarith
    · by_cases h2 : lineSum p (rowCells g i) = -(g.size : Int) ∨
          lineSum p (colCells g i) = -(g.size : Int)
      · rw [if_neg h1, if_pos h2]
        left
        exact le_rfl
      · rw [if_neg h1, if_neg h2]
        push_neg at h1 h2
        rcases ih (acc + lineSum p (rowCells g i) + lineSum p (colCells g i)) with h | h
        · left
          exact h
        · right
          push_cast
          have hexp : (2 * (g.size : Int) - 2) * ((rest.length : Int) + 1)
              = (2 * (g.size : Int) - 2) * (rest.length : Int) + (2 * (g.size : Int) - 2) := by
            ring
          rw [hexp]
          have hlo : -(2 * (g.size : Int) - 2)
              ≤ lineSum p (rowCells g i) + lineSum p (colCells g i) := by
            omega
          linarith

theorem outcome_lb (g : Game) (p : Nat) :
    -(3 * (g.size : Int) * g.size) ≤ outcome g p := by
  unfold outcome
  have hsz0 : (0 : Int) ≤ (g.size : Int) := Int.natCast_nonneg g.size
  have hsq : (0 : Int) ≤ (g.size : Int) * g.size := mul_nonneg hsz0 hsz0
  split_ifs with hguard
  · nlinarith
  · rcases outcomeRows_lb g p (List.range g.size) 0 with h | h
    · exact h
    · have hlen : (((List.range g.size)).length : Int) = (g.size : Int) := by simp
      rw [hlen] at h
      nlinarith

theorem abMaxLoop_strict (g : Game) (player : Nat) (B : Int)
    (f : Game → Int → Int → Nat → Nat → move)
    (hf : ∀ (i j : Nat) (a b : Int),
      -B ≤ (f (Play g (i : Int) (j : Int) player).2 a b i j).value ∨
      a < (f (Play g (i : Int) (j : Int) player).2 a b i j).value) :
    ∀ (cells : List (Nat × Nat × Nat)) (p : move) (beta : Int),
      (∃ c ∈ cells, c.2.2 = Empty) →
      -B ≤ (abMaxLoop g player f cells p p.value beta).value ∨
      p.value < (abMaxLoop g player f cells p p.value beta).value := by
  intro cells
  induction cells with
  | nil =>
    rintro p beta ⟨c, hc, _⟩
    cases hc
  | cons c rest ih =>
    rintro p beta hex
    obtain ⟨i, j, e⟩ := c
    by_cases he : e ≠ Empty
    · simp only [abMaxLoop, if_pos he]
      apply ih p beta
      rcases hex with ⟨c2, hc2, hc2e⟩
      rcases List.mem_cons.mp hc2 with heq | hm
      · exfalso
        subst heq
        exact he hc2e
      · exact ⟨c2, hm, hc2e⟩
    · push_neg at he
      subst he
      simp only [abMaxLoop]
      rw [if_neg (show ¬((Empty : Nat) ≠ Empty) by simp)]
      have hfm : -B ≤ (f (Play g (i : Int) (j : Int) player).2 p.value beta i j).value ∨
          p.value < (f (Play g (i : Int) (j : Int) player).2 p.value beta i j).value :=
        hf i j p.value beta
      by_cases hcut : beta ≤ (max p ⟨(f (Play g (i : Int) (j : Int) player).2 p.value beta i j).value,
          (i : Int), (j : Int)⟩).value
      · rw [if_pos hcut]
        exact hfm
      · rw [if_neg hcut]
        by_cases hrest : ∃ c2 ∈ rest, c2.2.2 = Empty
        · rcases ih (max p ⟨(f (Play g (i : Int) (j : Int) player).2 p.value beta i j).value,
              (i : Int), (j : Int)⟩) beta hrest with h | h
          · left
            exact h
          · right
            exact lt_of_le_of_lt (value_le_max p _).1 h
        · push_neg at hrest
          rw [abMaxLoop_noEmpty g player f rest _ _ beta hrest]
          rcases max_eq_or p ⟨(f (Play g (i : Int) (j : Int) player).2 p.value beta i j).value,
              (i : Int), (j : Int)⟩ with hmx | hmx
          · rw [hmx]
            have hge : (f (Play g (i : Int) (j : Int) player).2 p.value beta i j).value ≤ p.value := by
              rcases le_or_lt (f (Play g (i : Int) (j : Int) player).2 p.value beta i j).value
                  p.value with hle | hlt2
              · exact hle
              · exfalso
                unfold max at hmx
                rw [if_neg (by simp only; omega)] at hmx
                have := congrArg move.value hmx
                simp only at this
                omega
            rcases hfm with h | h
            · left
              omega
            · left
              omega
          · rw [hmx]
            exact hfm

theorem abMinLoop_strict (g : Game) (curr : Nat) (B alpha : Int)
    (f : Game → Int → Int → Nat → Nat → move)
    (hf : ∀ (i j : Nat) (a b : Int),
      -B ≤ (f (Play g (i : Int) (j : Int) curr).2 a b i j).value ∨
      a < (f (Play g (i : Int) (j : Int) curr).2 a b i j).value) :
    ∀ (cells : List (Nat × Nat × Nat)) (p : move),
      (∃ c ∈ cells, c.2.2 = Empty) →
      -B ≤ (abMinLoop g curr f cells p p.value alpha).value ∨
      alpha < (abMinLoop g curr f cells p p.value alpha).value := by
  intro cells
  induction cells with
  | nil =>
    rintro p ⟨c, hc, _⟩
    cases hc
  | cons c rest ih =>
    rintro p hex
    obtain ⟨i, j, e⟩ := c
    by_cases he : e ≠ Empty
    · simp only [abMinLoop, if_pos he]
      apply ih p
      rcases hex with ⟨c2, hc2, hc2e⟩
      rcases List.mem_cons.mp hc2 with heq | hm
      · exfalso
        subst heq
        exact he hc2e
      · exact ⟨c2, hm, hc2e⟩
    · push_neg at he
      subst he
      simp only [abMinLoop]
      rw [if_neg (show ¬((Empty : Nat) ≠ Empty) by simp)]
      have hfm : -B ≤ (f (Play g (i : Int) (j : Int) curr).2 alpha p.value i j).value ∨
          alpha < (f (Play g (i : Int) (j : Int) curr).2 alpha p.value i j).value :=
        hf i j alpha p.value
      by_cases hcut : (min p ⟨(f (Play g (i : Int) (j : Int) curr).2 alpha p.value i j).value,
          (i : Int), (j : Int)⟩).value ≤ alpha
      · rw [if_pos hcut]
        exact hfm
      · rw [if_neg hcut]
        push_neg at hcut
        by_cases hrest : ∃ c2 ∈ rest, c2.2.2 = Empty
        · exact ih (min p ⟨(f (Play g (i : Int) (j : Int) curr).2 alpha p.value i j).value,
            (i : Int), (j : Int)⟩) hrest
        · push_neg at hrest
          rw [abMinLoop_noEmpty g curr f rest _ _ alpha hrest]
          right
          exact hcut

theorem alphaBeta_strict :
    ∀ (depth : Nat) (g : Game) (alpha beta x y : Int) (player : Nat),
      -(3 * (g.size : Int) * g.size) ≤ (alphaBetaPruningSerial g depth alpha beta x y player).value ∨
      alpha < (alphaBetaPruningSerial g depth alpha beta x y player).value := by
  intro depth
  induction depth with
  | zero =>
    intro g alpha beta x y player
    left
    simp only [alphaBetaPruningSerial]
    exact outcome_lb g player
  | succ d ih =>
    intro g alpha beta x y player
    by_cases hdone : (isDone g).1 = true
    · left
      simp only [alphaBetaPruningSerial, if_pos hdone]
      exact outcome_lb g player
    · have hnd : (isDone g).1 = false := by
        cases h2 : (isDone g).1
        · rfl
        · exact absurd h2 hdone
      have hex : ∃ c ∈ cellsOf g, c.2.2 = Empty := by
        obtain ⟨i, j, hmem⟩ := not_done_empty g hnd
        exact ⟨(i, j, Empty), hmem, rfl⟩
      by_cases hturn : g.currPlayer = player
      · simp only [alphaBetaPruningSerial, if_neg hdone, if_pos hturn]
        exact abMaxLoop_strict g player (3 * (g.size : Int) * g.size)
          (fun ng a b i2 j2 => alphaBetaPruningSerial ng d a b (i2 : Int) (j2 : Int) player)
          (fun i2 j2 a b => by
            have hres := ih (Play g (i2 : Int) (j2 : Int) player).2 a b (i2 : Int) (j2 : Int) player
            rw [Play_size] at hres
            exact hres)
          (cellsOf g) ⟨alpha, x, y⟩ beta hex
      · simp only [alphaBetaPruningSerial, if_neg hdone, if_neg hturn]
        exact abMinLoop_strict g g.currPlayer (3 * (g.size : Int) * g.size) alpha
          (fun ng a b i2 j2 => alphaBetaPruningSerial ng d a b (i2 : Int) (j2 : Int) player)
          (fun i2 j2 a b => by
            have hres := ih (Play g (i2 : Int) (j2 : Int) g.currPlayer).2 a b (i2 : Int) (j2 : Int) player
            rw [Play_size] at hres
            exact hres)
          (cellsOf g) ⟨beta, x, y⟩ hex

theorem alphaBeta_top_good (g : Game) (player : Nat) (hwf : WF g)
    (ht : g.currPlayer = player) (hnd : (isDone g).1 = false) (d : Nat) :
    GoodCoord g (alphaBetaPruningSerial g (d + 1)
      (-((g.size : Int) * (g.size : Int) * 10)) ((g.size : Int) * (g.size : Int) * 10)
      (-1) (-1) player) := by
  obtain ⟨i0, j0, hm0⟩ := not_done_empty g hnd
  have hsz1 : 1 ≤ g.size := by
    have := (cellsOf_wf g hwf i0 j0 Empty hm0).1
    omega
  have hszi : (1 : Int) ≤ (g.size : Int) := by exact_mod_cast hsz1
  have hex : ∃ c ∈ cellsOf g, c.2.2 = Empty := ⟨(i0, j0, Empty), hm0, rfl⟩
  have hdone : ¬((isDone g).1 = true) := by
    rw [hnd]
    simp
  simp only [alphaBetaPruningSerial, if_neg hdone, if_pos ht]
  rcases abMaxLoop_coords g player
      (fun ng a b i2 j2 => alphaBetaPruningSerial ng d a b (i2 : Int) (j2 : Int) player)
      (cellsOf g) ⟨-((g.size : Int) * (g.size : Int) * 10), -1, -1⟩
      (-((g.size : Int) * (g.size : Int) * 10)) ((g.size : Int) * (g.size : Int) * 10)
      (fun c hc => hc) with hres | hres
  · exfalso
    have hstrict := abMaxLoop_strict g player (3 * (g.size : Int) * g.size)
      (fun ng a b i2 j2 => alphaBetaPruningSerial ng d a b (i2 : Int) (j2 : Int) player)
      (fun i2 j2 a b => by
        have hres2 := alphaBeta_strict d (Play g (i2 : Int) (j2 : Int) player).2 a b
          (i2 : Int) (j2 : Int) player
        rw [Play_size] at hres2
        exact hres2)
      (cellsOf g) ⟨-((g.size : Int) * (g.size : Int) * 10), -1, -1⟩
      ((g.size : Int) * (g.size : Int) * 10) hex
    rw [hres] at hstrict
    simp only at hstrict
    rcases hstrict with h | h
    · nlinarith
    · omega
  · exact hres

/- ------------------------------------------------------------------ -/
/- C1                                                                  -/
/- ------------------------------------------------------------------ -/

/-- C1 counterexample: a full (terminal) 1×1 board, reached by a legal
move from the empty board; the turn precondition holds for Nought, yet
PlayAI returns an out-of-bounds error because the search hands back the
initial (-1,-1) coordinates. -/
theorem PlayAI_terminal_cx :
    (Play ⟨[[Empty]], 1, 1, Cross⟩ 0 0 Cross).2 = (⟨[[Cross]], 1, 0, Nought⟩ : Game) ∧
    (⟨[[Cross]], 1, 0, Nought⟩ : Game).currPlayer = Nought ∧
    (PlayAI ⟨[[Cross]], 1, 0, Nought⟩ Nought).1 = Except.error PlayError.outOfBounds :=
  ⟨rfl, rfl, rfl⟩

/-- C1 (amended): when it is player's turn and the game is not yet done
(so at least one Empty cell exists), PlayAI on a well-formed board never
fails; on terminal boards (full or already won) the turn precondition is
not enough and PlayAI returns an error instead. -/
theorem PlayAI_ok (g : Game) (player : Nat) (hwf : WF g) (ht : g.currPlayer = player)
    (hnd : (isDone g).1 = false) :
    ∃ r g2, PlayAI g player = (Except.ok r, g2) := by
  obtain ⟨i0, j0, hm0⟩ := not_done_empty g hnd
  have hsz1 : 1 ≤ g.size := by
    have := (cellsOf_wf g hwf i0 j0 Empty hm0).1
    omega
  obtain ⟨d, hd⟩ : ∃ d, g.size * g.size = d + 1 := by
    have h1 : 1 ≤ g.size * g.size := Nat.mul_le_mul hsz1 hsz1
    exact ⟨g.size * g.size - 1, by omega⟩
  have hgood := alphaBeta_top_good g player hwf ht hnd d
  rw [← hd] at hgood
  obtain ⟨i, j, hi_eq, hj_eq, hmem⟩ := hgood
  obtain ⟨hib, hjb, hcell⟩ := cellsOf_wf g hwf i j Empty hmem
  unfold PlayAI
  rw [if_neg (by simp [ht])]
  show ∃ r g2,
    Play g (alphaBetaPruningSerial g (g.size * g.size)
        (-((g.size : Int) * (g.size : Int) * 10)) ((g.size : Int) * (g.size : Int) * 10)
        (-1) (-1) player).i
      (alphaBetaPruningSerial g (g.size * g.size)
        (-((g.size : Int) * (g.size : Int) * 10)) ((g.size : Int) * (g.size : Int) * 10)
        (-1) (-1) player).j player = (Except.ok r, g2)
  rw [hi_eq, hj_eq]
  have hps := Play_success_shape g (i : Int) (j : Int) player ht
    ⟨Int.natCast_nonneg i, by exact_mod_cast hib, Int.natCast_nonneg j, by exact_mod_cast hjb⟩
    (by simpa using hcell)
  exact ⟨_, _, hps⟩

/-- Witness for C1's amended theorem: PlayAI succeeds on the empty 1×1
board. -/
theorem PlayAI_ok_witness :
    ∃ r g2, PlayAI ⟨[[Empty]], 1, 1, Cross⟩ Cross = (Except.ok r, g2) :=
  PlayAI_ok ⟨[[Empty]], 1, 1, Cross⟩ Cross (by decide) rfl (by decide)

/- ------------------------------------------------------------------ -/
/- C7                                                                  -/
/- ------------------------------------------------------------------ -/

/-- C7: whenever the search invoked by PlayAI returns coordinates that
denote a cell of the board, that cell is Empty — the search never
returns the coordinates of an already-occupied cell (on a terminal
board it returns (-1,-1), which denotes no cell at all). -/
theorem search_unoccupied (g : Game) (player : Nat) (hwf : WF g)
    (ht : g.currPlayer = player) :
    ∀ i j : Nat,
      (alphaBetaPruningSerial g (g.size * g.size)
        (-((g.size : Int) * (g.size : Int) * 10)) ((g.size : Int) * (g.size : Int) * 10)
        (-1) (-1) player).i = (i : Int) →
      (alphaBetaPruningSerial g (g.size * g.size)
        (-((g.size : Int) * (g.size : Int) * 10)) ((g.size : Int) * (g.size : Int) * 10)
        (-1) (-1) player).j = (j : Int) →
      cell g i j = Empty := by
  intro i j hi hj
  cases hsz : g.size * g.size with
  | zero =>
    rw [hsz] at hi
    simp only [alphaBetaPruningSerial] at hi
    omega
  | succ d =>
    rw [hsz] at hi hj
    by_cases hdone : (isDone g).1 = true
    · simp only [alphaBetaPruningSerial, if_pos hdone] at hi
      omega
    · have hnd : (isDone g).1 = false := by
        cases h2 : (isDone g).1
        · rfl
        · exact absurd h2 hdone
      have hgood := alphaBeta_top_good g player hwf ht hnd d
      obtain ⟨i0, j0, hi0, hj0, hmem⟩ := hgood
      obtain ⟨hib, hjb, hcell⟩ := cellsOf_wf g hwf i0 j0 Empty hmem
      have hii : (i0 : Int) = (i : Int) := by
        rw [← hi0, hi]
      have hjj : (j0 : Int) = (j : Int) := by
        rw [← hj0, hj]
      have hii2 : i0 = i := by omega
      have hjj2 : j0 = j := by omega
      subst hii2
      subst hjj2
      exact hcell

/-- Witness for C7 on the empty 1×1 board, where the search returns
cell (0,0). -/
theorem search_unoccupied_witness :
    cell ⟨[[Empty]], 1, 1, Cross⟩ 0 0 = Empty :=
  search_unoccupied ⟨[[Empty]], 1, 1, Cross⟩ Cross (by decide) rfl 0 0
    (by decide) (by decide)


end nnc
